import Mathlib

/-!
Verification of the xBase3 dBASE III+ engine (DBF record store, XDX B-tree
index, expression-evaluator string operators, and the record-iterating
command dispatcher) against its natural-language specification.

The C sources are shallowly embedded: file I/O always succeeds in the model
(no claim under scrutiny concerns I/O failure), records and index nodes are
lists of byte lists, `uint32_t` record numbers are `Nat`, and the C global
error channel (`error_set`) is reflected in explicit result types.
-/

namespace XBase3

/-- A byte; the C code manipulates `uint8_t`/`char` buffers. -/
abbrev Byte := Nat

/-- ASCII space; `DBF_RECORD_ACTIVE` in dbf.h (also the fill byte of blank rows). -/
def spaceB : Byte := 32

/-- ASCII `*`; `DBF_RECORD_DELETED` in dbf.h. -/
def starB : Byte := 42

/-- C `isspace` in the default locale: space, TAB, LF, VT, FF, CR. -/
def isspaceB (b : Byte) : Bool := b = 32 || (9 ≤ b && b ≤ 13)

/-- C `isdigit`. -/
def isdigitB (b : Byte) : Bool := 48 ≤ b && b ≤ 57

/-- Field type byte `'C'` (FIELD_TYPE_CHAR). -/
def typeChar : Byte := 67
/-- Field type byte `'N'` (FIELD_TYPE_NUMERIC). -/
def typeNumeric : Byte := 78
/-- Field type byte `'D'` (FIELD_TYPE_DATE). -/
def typeDate : Byte := 68
/-- Field type byte `'L'` (FIELD_TYPE_LOGICAL). -/
def typeLogical : Byte := 76

/-- Field descriptor, dbf.h `DBFField`.  The `offset` is the derived start of
the field inside a record row (byte 0 of a row is the delete marker). -/
structure DBFField where
  name : List Byte
  ftype : Byte
  length : Nat
  decimals : Nat
  offset : Nat
deriving DecidableEq, Repr

/-- DBF cursor state, dbf.h `DBF`.  The on-disk record area is `records`
(the header's `record_count` always equals `records.length` because every
code path that changes one changes the other); `fp`, `filename` and `alias`
are not modelled.  `record_buffer` is the in-memory current-row buffer. -/
structure DBF where
  readonly : Bool
  fields : List DBFField
  record_size : Nat
  records : List (List Byte)
  current_record : Nat
  record_buffer : List Byte
  modified : Bool
  eof : Bool
  bof : Bool
  deleted : Bool
deriving DecidableEq, Repr

/-- Header record count (`dbf->header.record_count`). -/
def DBF.reccount (s : DBF) : Nat := s.records.length

@[simp] theorem DBF.reccount_def (s : DBF) : s.reccount = s.records.length := rfl

theorem getD_mem {α : Type _} : ∀ (l : List α) (i : Nat) (d : α),
    i < l.length → l.getD i d ∈ l
  | a :: _, 0, d, _ => by simp [List.getD]
  | _ :: t, i + 1, d, h => by
    simp only [List.getD_cons_succ]
    exact List.mem_cons_of_mem _ (getD_mem t i d (by simpa using h))

theorem head?_set_zero {α : Type _} (l : List α) (a : α) (h : 0 < l.length) :
    (l.set 0 a).head? = some a := by
  cases l with
  | nil => simp at h
  | cons b t => simp

/-- An all-spaces row of `n` bytes: `memset(buf, ' ', n)` followed by
`buf[0] = DBF_RECORD_ACTIVE` (which is the same `' '` byte). -/
def blankRow (n : Nat) : List Byte := List.replicate n spaceB

/-- dbf.c `write_record`: flush the buffer into the current row slot. -/
def write_record (s : DBF) : DBF × Bool :=
  if s.readonly then (s, false)
  else if s.current_record = 0 ∨ s.current_record > s.reccount then (s, false)
  else ({ s with records := s.records.set (s.current_record - 1) s.record_buffer,
                 modified := false }, true)

/-- The `if (dbf->modified) write_record(dbf);` prelude shared by `dbf_goto`,
`dbf_append_blank` and `dbf_pack`, factored out. -/
def flushed (s : DBF) : DBF :=
  if s.modified then (write_record s).1 else s

/-- dbf.c `read_record`: load the current row into the buffer and mirror the
delete marker into the `deleted` flag.  Callers guarantee
`1 ≤ current_record ≤ reccount`, so the row access is in range. -/
def read_record (s : DBF) : DBF :=
  { s with record_buffer := s.records.getD (s.current_record - 1) [],
           deleted := decide ((s.records.getD (s.current_record - 1) []).head? = some starB),
           modified := false }

/-- dbf.c `dbf_goto`. -/
def dbf_goto (s : DBF) (recno : Nat) : DBF :=
  if recno = 0 then
    { flushed s with current_record := 0, bof := true, eof := false,
                     record_buffer := blankRow (flushed s).record_size }
  else if recno > (flushed s).reccount then
    { flushed s with current_record := (flushed s).reccount + 1, bof := false,
                     eof := true, record_buffer := blankRow (flushed s).record_size }
  else
    read_record { flushed s with current_record := recno, bof := false, eof := false }

/-- dbf.c `dbf_skip`; `count` is a C `int`. -/
def dbf_skip (s : DBF) (count : Int) : DBF :=
  if count = 0 then s
  else
    dbf_goto s
      (if count > 0 then s.current_record + count.toNat
       else if (-count).toNat ≥ s.current_record then 0
       else s.current_record - (-count).toNat)

/-- dbf.c `dbf_go_top`. -/
def dbf_go_top (s : DBF) : DBF :=
  if s.reccount = 0 then
    { s with bof := true, eof := true, current_record := 0 }
  else dbf_goto s 1

/-- dbf.c `dbf_go_bottom`. -/
def dbf_go_bottom (s : DBF) : DBF :=
  if s.reccount = 0 then
    { s with bof := true, eof := true, current_record := 0 }
  else dbf_goto s s.reccount

/-- dbf.c `dbf_append_blank`: blank row written at the end, header count
incremented, cursor moved to the new record. -/
def dbf_append_blank (s : DBF) : DBF × Bool :=
  if s.readonly then (s, false)
  else
    ({ flushed s with
         record_buffer := blankRow (flushed s).record_size,
         records := (flushed s).records ++ [blankRow (flushed s).record_size],
         current_record := (flushed s).reccount + 1,
         bof := false, eof := false, deleted := false, modified := false }, true)

/-- dbf.c `dbf_delete`: marks the buffered row deleted. -/
def dbf_delete (s : DBF) : DBF × Bool :=
  if s.readonly then (s, false)
  else if s.current_record = 0 ∨ s.eof then (s, false)
  else ({ s with record_buffer := s.record_buffer.set 0 starB,
                 deleted := true, modified := true }, true)

/-- dbf.c `dbf_recall`. -/
def dbf_recall (s : DBF) : DBF × Bool :=
  if s.readonly then (s, false)
  else if s.current_record = 0 ∨ s.eof then (s, false)
  else ({ s with record_buffer := s.record_buffer.set 0 spaceB,
                 deleted := false, modified := true }, true)

/-- dbf.c `dbf_flush`. -/
def dbf_flush (s : DBF) : DBF × Bool :=
  if s.modified then write_record s else (s, true)

/-- dbf.c `dbf_pack`: keep the rows whose delete marker is not `'*'`,
then reposition to the top. -/
def dbf_pack (s : DBF) : DBF × Bool :=
  if s.readonly then (s, false)
  else
    (dbf_go_top { flushed s with
        records := (flushed s).records.filter
          (fun r => !(decide (r.head? = some starB))) }, true)

/-- dbf.c `dbf_zap`. -/
def dbf_zap (s : DBF) : DBF × Bool :=
  if s.readonly then (s, false)
  else
    ({ s with records := [], current_record := 0, bof := true, eof := true,
              deleted := false, modified := false,
              record_buffer := blankRow s.record_size }, true)

/-- dbf.c `dbf_open`, after the header and field table have been parsed.
File reading is elided: the function receives the decoded schema and the
record rows.  The record buffer starts zeroed (`xcalloc`). -/
def dbf_open (fields : List DBFField) (record_size : Nat)
    (rows : List (List Byte)) (readonly : Bool) : DBF :=
  let s : DBF := { readonly := readonly, fields := fields,
                   record_size := record_size, records := rows,
                   current_record := 0,
                   record_buffer := List.replicate record_size 0,
                   modified := false, eof := rows.length = 0,
                   bof := true, deleted := false }
  if s.reccount > 0 then dbf_go_top s else s

/-! ## Well-formedness of a DBF cursor

`structWF` is the size bookkeeping every operation preserves; `DBF.WF` adds
the flag/cursor relationships that actually hold in the code (the amended
form of claim C1). -/

/-- Size bookkeeping: rows and the buffer have the declared record size. -/
def structWF (s : DBF) : Prop :=
  1 ≤ s.record_size ∧ s.record_buffer.length = s.record_size ∧
  ∀ r ∈ s.records, r.length = s.record_size

/-- Cursor/flag invariant as the code actually maintains it: the BOF
equivalence is exact; `current > reccount` forces EOF but EOF can also hold
with `current = 0` on an empty file; the deleted-flag mirror is only
guaranteed on a valid current record. -/
def DBF.WF (s : DBF) : Prop :=
  structWF s ∧
  s.current_record ≤ s.reccount + 1 ∧
  (s.current_record = 0 ↔ s.bof) ∧
  (s.current_record > s.reccount → s.eof) ∧
  (s.eof → s.current_record > s.reccount ∨ s.reccount = 0) ∧
  ((¬ s.bof ∧ ¬ s.eof) → (s.deleted ↔ s.record_buffer.head? = some starB))

instance : DecidablePred structWF := fun s => by
  unfold structWF; infer_instance

instance : DecidablePred DBF.WF := fun s => by
  unfold DBF.WF; infer_instance

/-- The flag part of `DBF.WF`, i.e. the amended C1 invariant. -/
def amendedInv (s : DBF) : Prop :=
  (s.current_record = 0 ↔ s.bof) ∧
  (s.current_record > s.reccount → s.eof) ∧
  (s.eof → s.current_record > s.reccount ∨ s.reccount = 0) ∧
  ((¬ s.bof ∧ ¬ s.eof) → (s.deleted ↔ s.record_buffer.head? = some starB))

theorem amendedInv_of_WF {s : DBF} (h : DBF.WF s) : amendedInv s :=
  ⟨h.2.2.1, h.2.2.2.1, h.2.2.2.2.1, h.2.2.2.2.2⟩

theorem structWF_write_record {s : DBF} (h : structWF s) :
    structWF (write_record s).1 := by
  obtain ⟨h1, h2, h3⟩ := h
  unfold write_record
  split
  · exact ⟨h1, h2, h3⟩
  split
  · exact ⟨h1, h2, h3⟩
  refine ⟨h1, h2, ?_⟩
  intro r hr
  rcases List.mem_or_eq_of_mem_set hr with hm | he
  · exact h3 r hm
  · simpa [he] using h2

theorem write_record_flags (s : DBF) :
    (write_record s).1.current_record = s.current_record ∧
    (write_record s).1.bof = s.bof ∧ (write_record s).1.eof = s.eof ∧
    (write_record s).1.deleted = s.deleted ∧
    (write_record s).1.record_buffer = s.record_buffer ∧
    (write_record s).1.record_size = s.record_size ∧
    (write_record s).1.readonly = s.readonly ∧
    (write_record s).1.reccount = s.reccount ∧
    (write_record s).1.fields = s.fields := by
  unfold write_record
  split
  · exact ⟨rfl, rfl, rfl, rfl, rfl, rfl, rfl, rfl, rfl⟩
  split
  · exact ⟨rfl, rfl, rfl, rfl, rfl, rfl, rfl, rfl, rfl⟩
  · exact ⟨rfl, rfl, rfl, rfl, rfl, rfl, rfl, by simp [DBF.reccount], rfl⟩

theorem flushed_flags (s : DBF) :
    (flushed s).current_record = s.current_record ∧
    (flushed s).bof = s.bof ∧ (flushed s).eof = s.eof ∧
    (flushed s).deleted = s.deleted ∧
    (flushed s).record_buffer = s.record_buffer ∧
    (flushed s).record_size = s.record_size ∧
    (flushed s).readonly = s.readonly ∧
    (flushed s).reccount = s.reccount ∧
    (flushed s).fields = s.fields := by
  unfold flushed
  split
  · exact write_record_flags s
  · exact ⟨rfl, rfl, rfl, rfl, rfl, rfl, rfl, rfl, rfl⟩

theorem structWF_flushed {s : DBF} (h : structWF s) : structWF (flushed s) := by
  unfold flushed
  split
  · exact structWF_write_record h
  · exact h

theorem WF_write_record {s : DBF} (h : DBF.WF s) : DBF.WF (write_record s).1 := by
  obtain ⟨hs, hd, ha, hb, hb', hc⟩ := h
  obtain ⟨f1, f2, f3, f4, f5, f6, f7, f8, f9⟩ := write_record_flags s
  exact ⟨structWF_write_record hs, by rw [f1, f8]; exact hd,
    by rw [f1, f2]; exact ha, by rw [f1, f3, f8]; exact hb,
    by rw [f1, f3, f8]; exact hb', by rw [f2, f3, f4, f5]; exact hc⟩

theorem WF_flushed {s : DBF} (h : DBF.WF s) : DBF.WF (flushed s) := by
  unfold flushed
  split
  · exact WF_write_record h
  · exact h

/-- The operation `dbf_goto` re-establishes the full invariant from the size bookkeeping
alone, because it rewrites every flag it promises something about. -/
theorem WF_goto {s : DBF} (h : structWF s) (n : Nat) : DBF.WF (dbf_goto s n) := by
  obtain ⟨h1, h2, h3⟩ := structWF_flushed h
  unfold dbf_goto
  split
  · exact ⟨⟨h1, by simp [blankRow], h3⟩, by simp, by simp, by simp, by simp, by simp⟩
  split
  · rename_i hn0 hgt
    simp only [DBF.reccount_def] at hgt
    exact ⟨⟨h1, by simp [blankRow], h3⟩, by simp, by simp, by simp,
      by simp, by simp⟩
  · rename_i hn0 hnle
    push_neg at hnle
    simp only [DBF.reccount_def] at hnle
    have hpos : 1 ≤ n := Nat.one_le_iff_ne_zero.mpr hn0
    have hrow : ((flushed s).records.getD (n - 1) []).length = (flushed s).record_size :=
      h3 _ (getD_mem _ _ _ (by omega))
    unfold read_record
    refine ⟨⟨h1, by simpa using hrow, h3⟩, by simp <;> omega, by simp <;> omega,
      by simp <;> omega, by simp <;> omega, by simp⟩

theorem WF_skip {s : DBF} (h : DBF.WF s) (d : Int) : DBF.WF (dbf_skip s d) := by
  unfold dbf_skip
  split
  · exact h
  · exact WF_goto h.1 _

theorem WF_go_top {s : DBF} (h : structWF s) : DBF.WF (dbf_go_top s) := by
  unfold dbf_go_top
  split
  · rename_i h0
    simp only [DBF.reccount_def] at h0
    exact ⟨h, by simp, by simp, by simp [h0], by simp [h0], by simp⟩
  · exact WF_goto h 1

theorem WF_go_bottom {s : DBF} (h : structWF s) : DBF.WF (dbf_go_bottom s) := by
  unfold dbf_go_bottom
  split
  · rename_i h0
    simp only [DBF.reccount_def] at h0
    exact ⟨h, by simp, by simp, by simp [h0], by simp [h0], by simp⟩
  · exact WF_goto h _

theorem WF_append_blank {s : DBF} (h : DBF.WF s) : DBF.WF (dbf_append_blank s).1 := by
  unfold dbf_append_blank
  split
  · exact h
  obtain ⟨h1, h2, h3⟩ := structWF_flushed h.1
  refine ⟨⟨h1, by simp [blankRow], ?_⟩, ?_, ?_, ?_, ?_, ?_⟩
  · intro r hr
    rcases List.mem_append.mp hr with hm | hm
    · exact h3 r hm
    · simp only [List.mem_singleton] at hm
      simp [hm, blankRow]
  · simp [DBF.reccount]
  · simp [DBF.reccount]
  · simp [DBF.reccount]
  · simp [DBF.reccount]
  · intro _
    simp only [blankRow]
    have h1' : (0 : Nat) < (flushed s).record_size := h1
    simp [List.head?_replicate, Nat.pos_iff_ne_zero.mp h1', starB, spaceB]

theorem WF_delete {s : DBF} (h : DBF.WF s) : DBF.WF (dbf_delete s).1 := by
  obtain ⟨⟨h1, h2, h3⟩, hd, ha, hb, hb', hc⟩ := h
  unfold dbf_delete
  split
  · exact ⟨⟨h1, h2, h3⟩, hd, ha, hb, hb', hc⟩
  split
  · exact ⟨⟨h1, h2, h3⟩, hd, ha, hb, hb', hc⟩
  refine ⟨⟨h1, by simpa using h2, h3⟩, hd, by simpa using ha,
    by simpa using hb, by simpa using hb', ?_⟩
  intro _
  have hlen : 0 < s.record_buffer.length := by omega
  simp [head?_set_zero _ _ hlen]

theorem WF_recall {s : DBF} (h : DBF.WF s) : DBF.WF (dbf_recall s).1 := by
  obtain ⟨⟨h1, h2, h3⟩, hd, ha, hb, hb', hc⟩ := h
  unfold dbf_recall
  split
  · exact ⟨⟨h1, h2, h3⟩, hd, ha, hb, hb', hc⟩
  split
  · exact ⟨⟨h1, h2, h3⟩, hd, ha, hb, hb', hc⟩
  refine ⟨⟨h1, by simpa using h2, h3⟩, hd, by simpa using ha,
    by simpa using hb, by simpa using hb', ?_⟩
  intro _
  have hlen : 0 < s.record_buffer.length := by omega
  simp [head?_set_zero _ _ hlen, spaceB, starB]

theorem WF_flush {s : DBF} (h : DBF.WF s) : DBF.WF (dbf_flush s).1 := by
  unfold dbf_flush
  split
  · exact WF_write_record h
  · exact h

theorem WF_pack {s : DBF} (h : DBF.WF s) : DBF.WF (dbf_pack s).1 := by
  unfold dbf_pack
  split
  · exact h
  apply WF_go_top
  obtain ⟨h1, h2, h3⟩ := structWF_flushed h.1
  refine ⟨h1, h2, ?_⟩
  intro r hr
  exact h3 r (List.mem_of_mem_filter hr)

theorem WF_zap {s : DBF} (h : DBF.WF s) : DBF.WF (dbf_zap s).1 := by
  unfold dbf_zap
  split
  · exact h
  · exact ⟨⟨h.1.1, by simp [blankRow], by simp [DBF.reccount]⟩,
      by simp [DBF.reccount], by simp, by simp [DBF.reccount],
      by simp [DBF.reccount], by simp⟩

theorem WF_open (fields : List DBFField) (record_size : Nat)
    (rows : List (List Byte)) (readonly : Bool)
    (hrs : 1 ≤ record_size) (hrows : ∀ r ∈ rows, r.length = record_size) :
    DBF.WF (dbf_open fields record_size rows readonly) := by
  simp only [dbf_open]
  split
  · exact WF_go_top ⟨hrs, by simp, hrows⟩
  · rename_i hz
    simp only [DBF.reccount_def, not_lt, Nat.le_zero] at hz
    refine ⟨⟨hrs, by simp, hrows⟩, ?_, ?_, ?_, ?_, ?_⟩ <;>
      simp [hz]

/-- Claim C1 counterexample.  Part one: opening an empty DBF leaves
`current = 0 = reccount` yet EOF set, refuting `current > reccount ⇔ EOF`.
Part two: deleting record 1 and then `dbf_goto 2` (past the end) blanks the
buffer but leaves the `deleted` flag stale, refuting
`deleted = (buffer byte 0 = '*')`. -/
theorem C1_counterexample :
    (¬ ((dbf_open [⟨[65], typeChar, 1, 0, 1⟩] 2 [] false).current_record >
          (dbf_open [⟨[65], typeChar, 1, 0, 1⟩] 2 [] false).reccount ↔
        (dbf_open [⟨[65], typeChar, 1, 0, 1⟩] 2 [] false).eof = true)) ∧
    ((dbf_goto (dbf_delete (dbf_open [⟨[65], typeChar, 1, 0, 1⟩] 2
          [[spaceB, 65]] false)).1 2).deleted = true ∧
     (dbf_goto (dbf_delete (dbf_open [⟨[65], typeChar, 1, 0, 1⟩] 2
          [[spaceB, 65]] false)).1 2).record_buffer.head? = some spaceB) := by
  decide

/-- Claim C1, amended: after any of the navigation/mutation operations on a
well-formed cursor, (a) `current = 0 ⇔ BOF`; (b) `current > reccount ⇒ EOF`,
and EOF implies `current > reccount` or the file is empty (an empty file
sets BOF and EOF simultaneously with `current = 0`); (c) the `deleted` flag
mirrors record-buffer byte 0 whenever the cursor is on a valid record —
`dbf_goto` to 0 or past the end blanks the buffer without refreshing
`deleted`.  `dbf_open` establishes the same invariant. -/
theorem C1_invariant_amended (s : DBF) (h : DBF.WF s) (n : Nat) (d : Int)
    (fields : List DBFField) (record_size : Nat) (rows : List (List Byte))
    (ro : Bool) (hrs : 1 ≤ record_size)
    (hrows : ∀ r ∈ rows, r.length = record_size) :
    amendedInv (dbf_goto s n) ∧ amendedInv (dbf_skip s d) ∧
    amendedInv (dbf_go_top s) ∧ amendedInv (dbf_go_bottom s) ∧
    amendedInv (dbf_append_blank s).1 ∧ amendedInv (dbf_delete s).1 ∧
    amendedInv (dbf_recall s).1 ∧ amendedInv (dbf_pack s).1 ∧
    amendedInv (dbf_zap s).1 ∧
    amendedInv (dbf_open fields record_size rows ro) :=
  ⟨amendedInv_of_WF (WF_goto h.1 n), amendedInv_of_WF (WF_skip h d),
   amendedInv_of_WF (WF_go_top h.1), amendedInv_of_WF (WF_go_bottom h.1),
   amendedInv_of_WF (WF_append_blank h), amendedInv_of_WF (WF_delete h),
   amendedInv_of_WF (WF_recall h), amendedInv_of_WF (WF_pack h),
   amendedInv_of_WF (WF_zap h),
   amendedInv_of_WF (WF_open fields record_size rows ro hrs hrows)⟩

/-- Witness for the amended C1 theorem at a concrete one-record cursor. -/
theorem C1_invariant_amended_witness :
    amendedInv (dbf_goto (dbf_open [⟨[65], typeChar, 1, 0, 1⟩] 2
      [[spaceB, 66]] false) 1) :=
  (C1_invariant_amended (dbf_open [⟨[65], typeChar, 1, 0, 1⟩] 2 [[spaceB, 66]] false)
    (by decide) 1 1 [⟨[65], typeChar, 1, 0, 1⟩] 2 [[spaceB, 66]] false
    (by decide) (by decide)).1

/-! ## Field codecs (dbf.c get/put functions, util.c numeric helpers) -/

/-- Result channel of a `dbf_put_*` call: `ok` is C `true`; `invalid` is C
`false` without `error_set`; `typeMismatch` is C `false` after
`error_set(ERR_TYPE_MISMATCH, ...)`. -/
inductive PutRes
  | ok
  | invalid
  | typeMismatch
deriving DecidableEq, Repr

/-- Decimal digit characters of `n`, most significant first. -/
def natDigits (n : Nat) : List Byte := (Nat.toDigits 10 n).map Char.toNat

/-- Value of a digit string (used by the `strtod` model). -/
def digitsToNat (l : List Byte) : Nat := l.foldl (fun acc b => acc * 10 + (b - 48)) 0

/-- util.c `num_to_str`, modelled for exactly-integral `double` values (the
only ones a decimal/binary64 mismatch cannot disturb): `%<w>.<d>f` renders
the digits, a dot and `d` zero decimals, right-justified with spaces to
width `w`; `snprintf` into a `w+1`-byte budget then keeps only the first `w`
characters of the rendering (the source of the silent-truncation bug). -/
def num_to_str (v : Int) (width decimals : Nat) : List Byte :=
  let w := max width 1
  let t := (if v < 0 then [45] else []) ++ natDigits v.natAbs ++
           (if decimals > 0 then 46 :: List.replicate decimals 48 else [])
  (List.replicate (w - t.length) spaceB ++ t).take w

/-- Exponent-part parser of the `strtod` model; returns `(0, orig)` when the
exponent is malformed (strtod backtracks over a bare `e`). -/
def parseExpAux (t orig : List Byte) : Int × List Byte :=
  let p : Bool × List Byte :=
    match t with
    | 45 :: u => (true, u)
    | 43 :: u => (false, u)
    | _ => (false, t)
  let ds := p.2.takeWhile isdigitB
  if ds.isEmpty then (0, orig)
  else ((if p.1 then -(digitsToNat ds : Int) else (digitsToNat ds : Int)),
        p.2.dropWhile isdigitB)

/-- Optional `e`/`E` exponent of the `strtod` model. -/
def parseExp (l : List Byte) : Int × List Byte :=
  match l with
  | 101 :: t => parseExpAux t l
  | 69 :: t => parseExpAux t l
  | _ => (0, l)

/-- C `strtod` on a decimal string, with exact rational arithmetic standing
in for the binary64 rounding; returns the value and the unconsumed suffix
(the `end` pointer).  Hex/infinity/nan forms are not modelled — DBF numeric
fields never contain them. -/
def strtodQ (l : List Byte) : ℚ × List Byte :=
  let sp : Bool × List Byte :=
    match l with
    | 45 :: t => (true, t)
    | 43 :: t => (false, t)
    | _ => (false, l)
  let ip := sp.2.takeWhile isdigitB
  let l2 := sp.2.dropWhile isdigitB
  let fr : List Byte × List Byte :=
    match l2 with
    | 46 :: t => (t.takeWhile isdigitB, t.dropWhile isdigitB)
    | _ => ([], l2)
  if ip.isEmpty && fr.1.isEmpty then (0, l)
  else
    let mant : ℚ := (digitsToNat ip : ℚ) + (digitsToNat fr.1 : ℚ) / ((10 : ℚ) ^ fr.1.length)
    let ex := parseExp fr.2
    ((if sp.1 then -(mant * (10 : ℚ) ^ ex.1) else mant * (10 : ℚ) ^ ex.1), ex.2)

/-- util.c `str_to_num`: tolerate surrounding whitespace, demand that the
rest is a full numeric literal; an all-blank string is 0. -/
def str_to_num (l : List Byte) : Option ℚ :=
  let l1 := l.dropWhile isspaceB
  if l1.isEmpty then some 0
  else
    let r := strtodQ l1
    if (r.2.dropWhile isspaceB).isEmpty then some r.1 else none

/-- Overwrite `len = bytes.length` bytes of `buf` starting at `off`
(the `memcpy`/`memset` pattern of the put codecs). -/
def writeRange (buf : List Byte) (off : Nat) (bytes : List Byte) : List Byte :=
  buf.take off ++ bytes ++ buf.drop (off + bytes.length)

/-- dbf.c `dbf_get_string`: no type check, copies
`min(field.length, bufsize-1)` bytes. -/
def dbf_get_string (s : DBF) (idx : Nat) (bufsize : Nat) : Option (List Byte) :=
  if bufsize = 0 then none
  else
    match s.fields.get? idx with
    | none => none
    | some f =>
      if s.current_record = 0 ∨ s.eof then none
      else some ((s.record_buffer.drop f.offset).take
                   (if f.length < bufsize - 1 then f.length else bufsize - 1))

/-- dbf.c `dbf_get_double`. -/
def dbf_get_double (s : DBF) (idx : Nat) : Option ℚ :=
  match s.fields.get? idx with
  | none => none
  | some f =>
    if s.current_record = 0 ∨ s.eof then none
    else if f.ftype ≠ typeNumeric then none
    else str_to_num ((s.record_buffer.drop f.offset).take
                       (if f.length < 31 then f.length else 31))

/-- dbf.c `dbf_get_logical`: true for `T/t/Y/y`. -/
def dbf_get_logical (s : DBF) (idx : Nat) : Option Bool :=
  match s.fields.get? idx with
  | none => none
  | some f =>
    if s.current_record = 0 ∨ s.eof then none
    else if f.ftype ≠ typeLogical then none
    else some (s.record_buffer.getD f.offset 0 = 84 ∨
               s.record_buffer.getD f.offset 0 = 116 ∨
               s.record_buffer.getD f.offset 0 = 89 ∨
               s.record_buffer.getD f.offset 0 = 121)

/-- dbf.c `dbf_get_date`: eight raw bytes. -/
def dbf_get_date (s : DBF) (idx : Nat) : Option (List Byte) :=
  match s.fields.get? idx with
  | none => none
  | some f =>
    if s.current_record = 0 ∨ s.eof then none
    else if f.ftype ≠ typeDate then none
    else some ((s.record_buffer.drop f.offset).take 8)

/-- dbf.c `dbf_put_string`: space-fill then copy up to the field length.
Note the source performs no field-type check here. -/
def dbf_put_string (s : DBF) (idx : Nat) (v : List Byte) : DBF × PutRes :=
  if s.readonly then (s, .invalid)
  else
    match s.fields.get? idx with
    | none => (s, .invalid)
    | some f =>
      if s.current_record = 0 ∨ s.eof then (s, .invalid)
      else
        ({ s with record_buffer := writeRange s.record_buffer f.offset
                    (v.take f.length ++ List.replicate (f.length - v.length) spaceB),
                  modified := true }, .ok)

/-- dbf.c `dbf_put_double` (value restricted to exactly-integral doubles,
matching the `num_to_str` model): format, then right-align into the field. -/
def dbf_put_double (s : DBF) (idx : Nat) (v : Int) : DBF × PutRes :=
  if s.readonly then (s, .invalid)
  else
    match s.fields.get? idx with
    | none => (s, .invalid)
    | some f =>
      if s.current_record = 0 ∨ s.eof then (s, .invalid)
      else if f.ftype ≠ typeNumeric then (s, .typeMismatch)
      else
        ({ s with record_buffer := writeRange s.record_buffer f.offset
                    (List.replicate (f.length - min (num_to_str v f.length f.decimals).length f.length) spaceB ++
                     (num_to_str v f.length f.decimals).take
                       (min (num_to_str v f.length f.decimals).length f.length)),
                  modified := true }, .ok)

/-- dbf.c `dbf_put_logical`. -/
def dbf_put_logical (s : DBF) (idx : Nat) (v : Bool) : DBF × PutRes :=
  if s.readonly then (s, .invalid)
  else
    match s.fields.get? idx with
    | none => (s, .invalid)
    | some f =>
      if s.current_record = 0 ∨ s.eof then (s, .invalid)
      else if f.ftype ≠ typeLogical then (s, .typeMismatch)
      else
        ({ s with record_buffer := writeRange s.record_buffer f.offset
                    [if v then 84 else 70],
                  modified := true }, .ok)

/-- dbf.c `dbf_put_date`: space-fill eight bytes, copy only an exactly
eight-byte value. -/
def dbf_put_date (s : DBF) (idx : Nat) (v : List Byte) : DBF × PutRes :=
  if s.readonly then (s, .invalid)
  else
    match s.fields.get? idx with
    | none => (s, .invalid)
    | some f =>
      if s.current_record = 0 ∨ s.eof then (s, .invalid)
      else if f.ftype ≠ typeDate then (s, .typeMismatch)
      else
        ({ s with record_buffer := writeRange s.record_buffer f.offset
                    (if v.length = 8 then v else List.replicate 8 spaceB),
                  modified := true }, .ok)

/-- A one-record DBF whose single field is NUMERIC(3,0); record 1 is
current, the field bytes read `"  1"`. -/
def sampleNumDbf : DBF :=
  { readonly := false, fields := [⟨[78, 49], typeNumeric, 3, 0, 1⟩],
    record_size := 4, records := [[spaceB, spaceB, spaceB, 49]],
    current_record := 1, record_buffer := [spaceB, spaceB, spaceB, 49],
    modified := false, eof := false, bof := false, deleted := false }

/-- A one-record DBF whose single field is CHAR(3). -/
def sampleCharDbf : DBF :=
  { readonly := false, fields := [⟨[67, 49], typeChar, 3, 0, 1⟩],
    record_size := 4, records := [[spaceB, 65, 66, 67]],
    current_record := 1, record_buffer := [spaceB, 65, 66, 67],
    modified := false, eof := false, bof := false, deleted := false }

/-- Claim C5 counterexample: `dbf_put_string` on a NUMERIC field does not
fail with TypeMismatch — it succeeds and rewrites the field bytes, because
the source has no field-type check in `dbf_put_string`. -/
theorem C5_counterexample :
    (dbf_put_string sampleNumDbf 0 [65, 66]).2 = PutRes.ok ∧
    (dbf_put_string sampleNumDbf 0 [65, 66]).1.record_buffer ≠
      sampleNumDbf.record_buffer := by
  decide

/-- Claim C5, amended: on an open non-readonly DBF with a valid current
record, the typed puts `dbf_put_double`, `dbf_put_logical` and
`dbf_put_date` fail with TypeMismatch and leave the state (hence the record
buffer) unchanged when the field type does not match; `dbf_put_string`
performs no type check and writes to a field of any type. -/
theorem C5_type_mismatch_amended (s : DBF) (idx : Nat) (f : DBFField)
    (hf : s.fields.get? idx = some f) (hro : s.readonly = false)
    (hval : ¬ (s.current_record = 0 ∨ s.eof = true))
    (w : Int) (b : Bool) (d v : List Byte) :
    (f.ftype ≠ typeNumeric → dbf_put_double s idx w = (s, PutRes.typeMismatch)) ∧
    (f.ftype ≠ typeLogical → dbf_put_logical s idx b = (s, PutRes.typeMismatch)) ∧
    (f.ftype ≠ typeDate → dbf_put_date s idx d = (s, PutRes.typeMismatch)) ∧
    (dbf_put_string s idx v).2 = PutRes.ok := by
  unfold dbf_put_double dbf_put_logical dbf_put_date dbf_put_string
  rw [hf, hro]
  refine ⟨?_, ?_, ?_, ?_⟩ <;> intros <;> simp_all

/-- Witness for the amended C5 theorem: `dbf_put_double` on the CHAR(3)
field really reports TypeMismatch. -/
theorem C5_type_mismatch_amended_witness :
    (dbf_put_double sampleCharDbf 0 7 = (sampleCharDbf, PutRes.typeMismatch)) ∧
    (dbf_put_string sampleCharDbf 0 [88]).2 = PutRes.ok :=
  ⟨((C5_type_mismatch_amended sampleCharDbf 0 ⟨[67, 49], typeChar, 3, 0, 1⟩
      (by decide) (by decide) (by decide) 7 true [] [88]).1 (by decide)),
   (C5_type_mismatch_amended sampleCharDbf 0 ⟨[67, 49], typeChar, 3, 0, 1⟩
      (by decide) (by decide) (by decide) 7 true [] [88]).2.2.2⟩

/-- Claim C6, failing input: storing 12345 into the NUMERIC(3,0) field
succeeds and leaves the field bytes `"123"` — the first three characters of
`"12345"` — a silent truncation; neither all asterisks (`"***"`) nor the
largest representable number (`"999"`) as the claim requires. -/
theorem C6_overflow_truncates :
    (dbf_put_double sampleNumDbf 0 12345).2 = PutRes.ok ∧
    ((dbf_put_double sampleNumDbf 0 12345).1.record_buffer.drop 1).take 3 =
      [49, 50, 51] ∧
    ((dbf_put_double sampleNumDbf 0 12345).1.record_buffer.drop 1).take 3 ≠
      [42, 42, 42] ∧
    ((dbf_put_double sampleNumDbf 0 12345).1.record_buffer.drop 1).take 3 ≠
      [57, 57, 57] := by
  decide

/-- Claim C10: with the cursor at BOF (`current = 0`) or at EOF, every field
get returns `false` (here: `none`) without producing a value, and every put
returns `false` without touching the record buffer or any other state. -/
theorem C10_no_access_without_record (s : DBF)
    (h : s.current_record = 0 ∨ s.eof = true)
    (idx bufsize : Nat) (v : List Byte) (w : Int) (b : Bool) (d : List Byte) :
    dbf_get_string s idx bufsize = none ∧
    dbf_get_double s idx = none ∧
    dbf_get_logical s idx = none ∧
    dbf_get_date s idx = none ∧
    dbf_put_string s idx v = (s, PutRes.invalid) ∧
    dbf_put_double s idx w = (s, PutRes.invalid) ∧
    dbf_put_logical s idx b = (s, PutRes.invalid) ∧
    dbf_put_date s idx d = (s, PutRes.invalid) := by
  have h' : s.current_record = 0 ∨ s.eof := by
    rcases h with h | h
    · exact Or.inl h
    · exact Or.inr h
  unfold dbf_get_string dbf_get_double dbf_get_logical dbf_get_date
    dbf_put_string dbf_put_double dbf_put_logical dbf_put_date
  refine ⟨?_, ?_, ?_, ?_, ?_, ?_, ?_, ?_⟩ <;>
    (try split) <;> (try rfl) <;>
    (cases hg : s.fields.get? idx <;> simp [h'])

/-- Witness for C10 at a concrete EOF cursor. -/
theorem C10_no_access_without_record_witness :
    dbf_get_string { sampleNumDbf with current_record := 2, eof := true } 0 10 = none ∧
    (dbf_put_string { sampleNumDbf with current_record := 2, eof := true } 0 [65]).2 =
      PutRes.invalid :=
  ⟨(C10_no_access_without_record _ (Or.inr rfl) 0 10 [65] 0 true []).1,
   by
    have := (C10_no_access_without_record
      { sampleNumDbf with current_record := 2, eof := true }
      (Or.inr rfl) 0 10 [65] 0 true []).2.2.2.2.1
    rw [this]⟩

/-! ## Command dispatcher: the DELETE record loop (commands.c)

FOR/WHILE conditions are expressions evaluated against the session; the
model abstracts `expr_eval` + `value_to_logical` into a `DBF → Bool`
function, and the evaluated `NEXT` count into a fixed `Nat`. -/

/-- ast.h `Scope` type tags. -/
inductive ScopeT
  | all
  | next (n : Nat)
  | record
  | rest
deriving Repr

/-- The scope/FOR/WHILE envelope carried by an iterating command. -/
structure CmdSpec where
  scope : ScopeT
  forCond : Option (DBF → Bool)
  whileCond : Option (DBF → Bool)

/-- commands.c `check_conditions`: scope test, then WHILE test.  (FOR is
tested separately in `check_for_condition`.) -/
def check_conditions (spec : CmdSpec) (s : DBF) (processed : Nat) : Bool :=
  (match spec.scope with
   | .next n => decide (processed < n)
   | .record => decide (processed < 1)
   | .rest => true
   | .all => true) &&
  (match spec.whileCond with
   | some w => w s
   | none => true)

/-- commands.c `check_for_condition`. -/
def check_for_condition (spec : CmdSpec) (s : DBF) : Bool :=
  match spec.forCond with
  | some c => c s
  | none => true

/-- The `while (!dbf_eof(dbf)) { ... }` loop body of commands.c
`cmd_delete`; note the source increments `processed` on every visited
record whether or not the FOR condition held. -/
def delLoop (spec : CmdSpec) : Nat → DBF → Nat → Nat → DBF × Nat
  | 0, s, _, deleted => (s, deleted)
  | fuel + 1, s, processed, deleted =>
    if s.eof then (s, deleted)
    else if ¬ check_conditions spec s processed then (s, deleted)
    else
      let step : DBF × Nat :=
        if check_for_condition spec s then
          ((dbf_delete s).1, if (dbf_delete s).2 then deleted + 1 else deleted)
        else (s, deleted)
      delLoop spec fuel (dbf_skip step.1 1) (processed + 1) step.2

/-- commands.c `cmd_delete`; the returned `Option Nat` is the reported
count: `some k` prints "k record(s) deleted", `none` prints nothing (the
no-scope branch stays silent when `dbf_delete` fails). -/
def cmd_delete (spec : CmdSpec) (s : DBF) : DBF × Option Nat :=
  match spec.scope, spec.forCond, spec.whileCond with
  | .all, none, none =>
    if (dbf_delete s).2 then ((dbf_flush (dbf_delete s).1).1, some 1)
    else ((dbf_delete s).1, none)
  | _, _, _ =>
    let s0 := if spec.scope matches .all then dbf_go_top s else s
    let r := delLoop spec (s0.reccount + 2) s0 0 0
    ((dbf_flush r.1).1, some r.2)

/-- A three-record DBF (single CHAR(1) field), positioned on record 1. -/
def sampleThreeDbf : DBF :=
  { readonly := false, fields := [⟨[67, 49], typeChar, 1, 0, 1⟩],
    record_size := 2, records := [[spaceB, 65], [spaceB, 66], [spaceB, 67]],
    current_record := 1, record_buffer := [spaceB, 65],
    modified := false, eof := false, bof := false, deleted := false }

/-- Claim C8 counterexample: DELETE (no scope/condition) twice on the same
current record reports "1 record deleted" BOTH times — the second report is
1, not the claimed 0, because `dbf_delete` happily re-marks an
already-deleted record and returns true. -/
theorem C8_counterexample :
    (cmd_delete ⟨ScopeT.all, none, none⟩ sampleThreeDbf).2 = some 1 ∧
    (cmd_delete ⟨ScopeT.all, none, none⟩
        (cmd_delete ⟨ScopeT.all, none, none⟩ sampleThreeDbf).1).2 = some 1 ∧
    (cmd_delete ⟨ScopeT.all, none, none⟩
        (cmd_delete ⟨ScopeT.all, none, none⟩ sampleThreeDbf).1).2 ≠ some 0 := by
  decide

/-- Claim C8, amended: DELETE twice in a row on the same valid current
record leaves the record deleted once (buffer byte 0 is `'*'` and stays
`'*'`), and the reported count is 1 on the first execution AND 1 (not 0) on
the second. -/
theorem C8_delete_twice_amended (s : DBF) (hro : s.readonly = false)
    (h1 : 1 ≤ s.current_record) (h2 : s.current_record ≤ s.reccount)
    (hbuf : 1 ≤ s.record_buffer.length) (heof : s.eof = false) :
    (cmd_delete ⟨ScopeT.all, none, none⟩ s).2 = some 1 ∧
    (cmd_delete ⟨ScopeT.all, none, none⟩ s).1.record_buffer.head? = some starB ∧
    (cmd_delete ⟨ScopeT.all, none, none⟩
        (cmd_delete ⟨ScopeT.all, none, none⟩ s).1).2 = some 1 ∧
    (cmd_delete ⟨ScopeT.all, none, none⟩
        (cmd_delete ⟨ScopeT.all, none, none⟩ s).1).1.record_buffer.head? =
      some starB := by
  simp only [DBF.reccount_def] at h2
  have hng : ¬ (s.current_record = 0 ∨ s.eof) := by
    simp [heof]
    omega
  have hdel : dbf_delete s =
      ({ s with record_buffer := s.record_buffer.set 0 starB,
                deleted := true, modified := true }, true) := by
    unfold dbf_delete
    rw [hro, if_neg (by simp), if_neg hng]
  have hhead : (s.record_buffer.set 0 starB).head? = some starB :=
    head?_set_zero _ _ (by omega)
  have hwr : ∀ t : DBF, t.readonly = false → t.current_record = s.current_record →
      t.reccount = s.reccount →
      (write_record t).1.record_buffer = t.record_buffer ∧
      (write_record t).1.current_record = t.current_record ∧
      (write_record t).1.eof = t.eof ∧
      (write_record t).1.readonly = t.readonly ∧
      (write_record t).1.reccount = t.reccount ∧
      (write_record t).1.modified = false := by
    intro t htro htc htr
    unfold write_record
    rw [htro, if_neg (by simp), if_neg (by simp only [DBF.reccount_def] at htr ⊢; omega)]
    simp
  constructor
  · unfold cmd_delete
    rw [hdel]
    simp
  constructor
  · unfold cmd_delete
    rw [hdel]
    simp only [if_pos]
    unfold dbf_flush
    simp only [if_pos]
    have := hwr { s with record_buffer := s.record_buffer.set 0 starB,
                         deleted := true, modified := true }
      (by simpa using hro) rfl rfl
    rw [this.1]
    simpa using hhead
  · -- state after the first DELETE: deleted mark flushed, same position
    have hflush : (dbf_flush (dbf_delete s).1).1 =
        { s with record_buffer := s.record_buffer.set 0 starB,
                 deleted := true, modified := false,
                 records := s.records.set (s.current_record - 1)
                              (s.record_buffer.set 0 starB) } := by
      rw [hdel]
      unfold dbf_flush
      simp only [if_pos]
      unfold write_record
      rw [if_neg (by simpa using hro), if_neg (by simp; omega)]
    have hd2 : (dbf_delete s).2 = true := by rw [hdel]
    have hfirst : (cmd_delete ⟨ScopeT.all, none, none⟩ s).1 =
        { s with record_buffer := s.record_buffer.set 0 starB,
                 deleted := true, modified := false,
                 records := s.records.set (s.current_record - 1)
                              (s.record_buffer.set 0 starB) } := by
      unfold cmd_delete
      rw [hd2]
      simpa using hflush
    set t : DBF := { s with record_buffer := s.record_buffer.set 0 starB,
                            deleted := true, modified := false,
                            records := s.records.set (s.current_record - 1)
                                         (s.record_buffer.set 0 starB) } with htdef
    have hng' : ¬ (t.current_record = 0 ∨ t.eof) := by
      simp [htdef, heof]
      omega
    have hdel2 : dbf_delete t =
        ({ t with record_buffer := t.record_buffer.set 0 starB,
                  deleted := true, modified := true }, true) := by
      unfold dbf_delete
      rw [if_neg (by simp [htdef, hro]), if_neg hng']
    have hhead2 : (t.record_buffer.set 0 starB).head? = some starB := by
      apply head?_set_zero
      simp [htdef]
      omega
    rw [hfirst]
    constructor
    · unfold cmd_delete
      rw [hdel2]
      simp
    · unfold cmd_delete
      rw [hdel2]
      simp only [if_pos]
      unfold dbf_flush
      simp only [if_pos]
      have := hwr { t with record_buffer := t.record_buffer.set 0 starB,
                           deleted := true, modified := true }
        (by simp [htdef, hro]) (by simp [htdef]) (by simp [htdef])
      rw [this.1]
      simpa using hhead2

/-- Witness for the amended C8 theorem on the concrete three-record DBF. -/
theorem C8_delete_twice_amended_witness :
    (cmd_delete ⟨ScopeT.all, none, none⟩ sampleThreeDbf).2 = some 1 ∧
    (cmd_delete ⟨ScopeT.all, none, none⟩
        (cmd_delete ⟨ScopeT.all, none, none⟩ sampleThreeDbf).1).2 = some 1 :=
  ⟨(C8_delete_twice_amended sampleThreeDbf (by decide) (by decide) (by decide)
      (by decide) (by decide)).1,
   (C8_delete_twice_amended sampleThreeDbf (by decide) (by decide) (by decide)
      (by decide) (by decide)).2.2.1⟩

/-! ## Facts about `dbf_goto` and `dbf_delete` used by the C7 loop proof -/

theorem goto_base_facts (s : DBF) (n : Nat) :
    (dbf_goto s n).readonly = s.readonly ∧ (dbf_goto s n).reccount = s.reccount := by
  obtain ⟨f1, f2, f3, f4, f5, f6, f7, f8, f9⟩ := flushed_flags s
  unfold dbf_goto
  split
  · exact ⟨f7, by simpa using f8⟩
  split
  · exact ⟨f7, by simpa using f8⟩
  · unfold read_record
    exact ⟨f7, by simpa using f8⟩

theorem goto_current_valid (s : DBF) (n : Nat) (h1 : 1 ≤ n) (h2 : n ≤ s.reccount) :
    (dbf_goto s n).current_record = n ∧ (dbf_goto s n).eof = false := by
  obtain ⟨f1, f2, f3, f4, f5, f6, f7, f8, f9⟩ := flushed_flags s
  unfold dbf_goto
  rw [if_neg (by omega), if_neg (by rw [f8]; omega)]
  unfold read_record
  exact ⟨rfl, rfl⟩

theorem goto_current_over (s : DBF) (n : Nat) (h0 : n ≠ 0) (h : n > s.reccount) :
    (dbf_goto s n).eof = true := by
  obtain ⟨f1, f2, f3, f4, f5, f6, f7, f8, f9⟩ := flushed_flags s
  unfold dbf_goto
  rw [if_neg h0, if_pos (by rw [f8]; omega)]

theorem dbf_delete_eq (s : DBF) (hro : s.readonly = false)
    (hng : ¬ (s.current_record = 0 ∨ s.eof)) :
    dbf_delete s = ({ s with record_buffer := s.record_buffer.set 0 starB,
                             deleted := true, modified := true }, true) := by
  unfold dbf_delete
  rw [hro, if_neg (by simp), if_neg hng]

/-- Claim C7 counterexample: three records, cursor on record 1, only record
3 qualifies under FOR.  `DELETE NEXT 2 FOR cond` reports 0 deletions even
though min(2, qualifying-from-start) = 1, because commands.c counts
FOR-false records toward the NEXT limit. -/
theorem C7_counterexample :
    (cmd_delete ⟨ScopeT.next 2, some (fun st => decide (st.current_record = 3)),
        none⟩ sampleThreeDbf).2 = some 0 ∧
    ((List.range' sampleThreeDbf.current_record sampleThreeDbf.reccount).filter
        (fun r => decide (r = 3))).length = 1 ∧
    some 0 ≠ some (min 2 1) := by
  decide

/-- Loop-count characterization of the commands.c `cmd_delete` record loop
under a `NEXT n` scope and a FOR condition that depends only on the record
number: every visited record counts toward `n`, so the records whose body
runs are the qualifying ones among the first
`min (n - processed) (reccount + 1 - current)` visited. -/
theorem delLoop_next_count (n : Nat) (condf : Nat → Bool) :
    ∀ (fuel : Nat) (s : DBF) (processed deleted : Nat), DBF.WF s →
      s.readonly = false → 1 ≤ s.current_record →
      s.current_record ≤ s.reccount →
      s.reccount + 2 ≤ fuel + s.current_record →
      (delLoop ⟨ScopeT.next n, some (fun st => condf st.current_record), none⟩
          fuel s processed deleted).2 =
        deleted + ((List.range' s.current_record
          (min (n - processed) (s.reccount + 1 - s.current_record))).filter
            condf).length := by
  intro fuel
  induction fuel with
  | zero => intro s processed deleted _ _ hc1 hc2 hfuel; omega
  | succ fuel ih =>
    intro s processed deleted hwf hro hc1 hc2 hfuel
    have heof : s.eof = false := by
      rcases Bool.eq_false_or_eq_true s.eof with ht | hf
      · rcases hwf.2.2.2.2.1 ht with hgt | hzero <;> omega
      · exact hf
    have hng : ¬ (s.current_record = 0 ∨ s.eof) := by simp [heof]; omega
    simp only [delLoop, heof, Bool.false_eq_true, if_false]
    by_cases hlim : processed < n
    · have hcond : check_conditions
          ⟨ScopeT.next n, some (fun st => condf st.current_record), none⟩ s processed = true := by
        simp [check_conditions, hlim]
      rw [if_neg (by simp [hcond])]
      have hfor : check_for_condition
          ⟨ScopeT.next n, some (fun st => condf st.current_record), none⟩ s =
            condf s.current_record := by
        simp [check_for_condition]
      have hdel := dbf_delete_eq s hro hng
      -- the state the loop advances from: identical cursor/records shape
      set t : DBF := if condf s.current_record then
          { s with record_buffer := s.record_buffer.set 0 starB,
                   deleted := true, modified := true } else s with htdef
      have hstep : (if check_for_condition
            ⟨ScopeT.next n, some (fun st => condf st.current_record), none⟩ s then
              ((dbf_delete s).1,
               if (dbf_delete s).2 then deleted + 1 else deleted)
            else (s, deleted)) =
          (t, if condf s.current_record then deleted + 1 else deleted) := by
        rw [hfor, htdef]
        by_cases hcf : condf s.current_record <;> simp [hcf, hdel]
      rw [hstep]
      have htcur : t.current_record = s.current_record := by
        rw [htdef]; split <;> rfl
      have htrec : t.reccount = s.reccount := by
        rw [htdef]; split <;> rfl
      have htro : t.readonly = false := by
        rw [htdef]; split <;> simpa using hro
      have hteof : t.eof = false := by
        rw [htdef]; split <;> simpa using heof
      have htwf : DBF.WF t := by
        rw [htdef]
        split
        · rename_i hcf
          obtain ⟨⟨g1, g2, g3⟩, gd, ga, gb, gb', gc⟩ := hwf
          refine ⟨⟨g1, by simpa using g2, g3⟩, gd, by simpa using ga,
            by simpa using gb, by simpa using gb', ?_⟩
          intro _
          have hlen : 0 < s.record_buffer.length := by omega
          simp [head?_set_zero _ _ hlen]
        · exact hwf
      have hskip : dbf_skip t 1 = dbf_goto t (s.current_record + 1) := by
        unfold dbf_skip
        rw [if_neg (by omega), if_pos (by omega), htcur]
        rfl
      rw [hskip]
      by_cases hlast : s.current_record + 1 ≤ s.reccount
      · -- interior record: recurse
        obtain ⟨gb1, gb2⟩ := goto_base_facts t (s.current_record + 1)
        obtain ⟨gc1, gc2⟩ := goto_current_valid t (s.current_record + 1)
          (by omega) (by omega)
        have := ih (dbf_goto t (s.current_record + 1)) (processed + 1)
          (if condf s.current_record then deleted + 1 else deleted)
          (WF_goto htwf.1 _) (by rw [gb1]; exact htro) (by omega)
          (by rw [gc1, gb2, htrec]; omega) (by rw [gc1, gb2, htrec]; omega)
        rw [this, gc1, gb2, htrec]
        have hm : min (n - processed) (s.reccount + 1 - s.current_record) =
            1 + min (n - (processed + 1)) (s.reccount + 1 - (s.current_record + 1)) := by
          omega
        rw [hm]
        rw [show (1 + min (n - (processed + 1)) (s.reccount + 1 - (s.current_record + 1))) =
              (min (n - (processed + 1)) (s.reccount + 1 - (s.current_record + 1))) + 1
            from by omega]
        rw [List.range'_succ]
        by_cases hcf : condf s.current_record <;>
          simp [hcf, List.filter_cons] <;> omega
      · -- last record: the next iteration sees EOF and stops
        have hceq : s.current_record = s.reccount := by omega
        have heof2 : (dbf_goto t (s.current_record + 1)).eof = true := by
          apply goto_current_over t _ (by omega)
          rw [htrec]
          omega
        have hm : min (n - processed) (s.reccount + 1 - s.current_record) = 1 := by
          omega
        rw [hm]
        cases fuel with
        | zero => omega
        | succ fuel' =>
          simp only [delLoop, heof2, if_true]
          rw [List.range'_one]
          by_cases hcf : condf s.current_record <;>
            simp [hcf, List.filter_cons] <;> omega
    · -- NEXT limit reached before this record
      have hcond : check_conditions
          ⟨ScopeT.next n, some (fun st => condf st.current_record), none⟩ s processed = false := by
        simp [check_conditions]
        omega
      rw [if_pos (by simp [hcond])]
      have hm : min (n - processed) (s.reccount + 1 - s.current_record) = 0 := by
        omega
      rw [hm]
      simp

/-- Claim C7, amended: for DELETE with scope `NEXT n` and a FOR condition
(here: one determined by the record number), every visited record — FOR-true
or not — counts toward `n`; the body therefore runs on exactly the
qualifying records among the first `min n (reccount + 1 - start)` records
from the start position, and the reported count is their number, not
`min n (number of qualifying records)`. -/
theorem C7_next_for_counting_amended (s : DBF) (n : Nat) (condf : Nat → Bool)
    (hwf : DBF.WF s) (hro : s.readonly = false)
    (hc1 : 1 ≤ s.current_record) (hc2 : s.current_record ≤ s.reccount) :
    (cmd_delete ⟨ScopeT.next n, some (fun st => condf st.current_record), none⟩ s).2 =
      some (((List.range' s.current_record
        (min n (s.reccount + 1 - s.current_record))).filter condf).length) := by
  have heq : cmd_delete ⟨ScopeT.next n, some (fun st => condf st.current_record),
        none⟩ s =
      ((dbf_flush (delLoop ⟨ScopeT.next n, some (fun st => condf st.current_record),
          none⟩ (s.reccount + 2) s 0 0).1).1,
       some (delLoop ⟨ScopeT.next n, some (fun st => condf st.current_record),
          none⟩ (s.reccount + 2) s 0 0).2) := rfl
  have hloop := delLoop_next_count n condf (s.reccount + 2) s 0 0 hwf hro hc1 hc2
    (by omega)
  simp only [Nat.sub_zero] at hloop
  rw [heq]
  simp only [hloop, Nat.zero_add]

/-- Witness for the amended C7 theorem: on the three-record DBF with the
FOR condition "record number = 3" and NEXT 2, the qualifying-visited count
is 0. -/
theorem C7_next_for_counting_amended_witness :
    (cmd_delete ⟨ScopeT.next 2,
        some (fun st => decide (st.current_record = 3)), none⟩ sampleThreeDbf).2 =
      some (((List.range' sampleThreeDbf.current_record
        (min 2 (sampleThreeDbf.reccount + 1 - sampleThreeDbf.current_record))).filter
          (fun r => decide (r = 3))).length) :=
  C7_next_for_counting_amended sampleThreeDbf 2 (fun r => decide (r = 3))
    (by decide) (by decide) (by decide) (by decide)

/-! ## Expression evaluator: binary string operators (expr.c `eval_binary`) -/

/-- util.c `str_trim_right`: the in-place loop erases trailing bytes while
C `isspace` holds; equivalently, drop the `isspaceB` prefix of the
reversal. -/
def str_trim_right (l : List Byte) : List Byte :=
  (l.reverse.dropWhile isspaceB).reverse

theorem dropWhile_head_false {α : Type _} (p : α → Bool) :
    ∀ (l : List α) (d : α) (t : List α), l.dropWhile p = d :: t → p d = false
  | [], d, t, h => by simp at h
  | a :: rest, d, t, h => by
    by_cases hp : p a
    · rw [List.dropWhile_cons_of_pos hp] at h
      exact dropWhile_head_false p rest d t h
    · rw [List.dropWhile_cons_of_neg hp] at h
      cases h
      simpa using hp

/-- expr.c `eval_binary`, `TOK_PLUS` arm for two strings:
`strcpy` then `strcat`, i.e. byte concatenation. -/
def eval_binary_str_plus (l r : List Byte) : List Byte := l ++ r

/-- expr.c `eval_binary`, `TOK_MINUS` arm for two strings: duplicate the
left operand, `str_trim_right` it, concatenate the right operand. -/
def eval_binary_str_minus (l r : List Byte) : List Byte := str_trim_right l ++ r

/-- The spec's words for the C9 minus arm: remove trailing SPACE bytes only
(the claim says "trailing spaces removed"), then concatenate.  Used to
compare against the source behaviour, which trims all C whitespace. -/
def rtrim_spaces_spec (l : List Byte) : List Byte :=
  (l.reverse.dropWhile (fun b => b = 32)).reverse

/-- Claim C9 counterexample: on a left operand ending in TAB (byte 9), the
source trims the TAB as well (C `isspace`), while the claim's
"trailing spaces removed" would keep it. -/
theorem C9_counterexample :
    eval_binary_str_minus [97, 9] [98] = [97, 98] ∧
    rtrim_spaces_spec [97, 9] ++ [98] = [97, 9, 98] ∧
    eval_binary_str_minus [97, 9] [98] ≠ rtrim_spaces_spec [97, 9] ++ [98] := by
  decide

/-- Claim C9, amended: `+` on two strings is byte concatenation; `-` on two
strings splits the left operand into a core and a trailing run of C
whitespace bytes (space, TAB, LF, VT, FF, CR — not just spaces), drops the
whitespace run, and concatenates the unmodified right operand. -/
theorem C9_string_operators_amended (l r : List Byte) :
    eval_binary_str_plus l r = l ++ r ∧
    ∃ core ws : List Byte,
      l = core ++ ws ∧ (∀ b ∈ ws, isspaceB b = true) ∧
      (core = [] ∨ ∃ c cs, core = cs ++ [c] ∧ isspaceB c = false) ∧
      eval_binary_str_minus l r = core ++ r := by
  refine ⟨rfl, (l.reverse.dropWhile isspaceB).reverse,
    (l.reverse.takeWhile isspaceB).reverse, ?_, ?_, ?_, rfl⟩
  · conv_lhs => rw [← l.reverse_reverse,
      ← List.takeWhile_append_dropWhile (p := isspaceB) (l := l.reverse)]
    rw [List.reverse_append]
  · intro b hb
    rw [List.mem_reverse] at hb
    exact List.mem_takeWhile_imp hb
  · rcases hdw : l.reverse.dropWhile isspaceB with _ | ⟨d, t⟩
    · left; simp
    · right
      exact ⟨d, t.reverse, by simp, dropWhile_head_false isspaceB l.reverse d t hdw⟩

/-! ## XDX B-tree engine (xdx.c)

The node store is a list of nodes; "offset" `o` addresses `nodes[o-1]`
(offset 0 is the C `NULL`/header sentinel).  `node_count` in the XDX header
always equals `nodes.length` (`node_create` increments both).  The key
comparator is a parameter of the configuration, standing for
`xdx_key_compare` of the index's key type and direction; `memcmpBytes`
below is its CHAR instance. -/

/-- One `XDXKeyEntry`: key bytes, record number, left-child offset
(meaningful in internal nodes only; leaf child slots are never read). -/
structure XEntry where
  key : List Byte
  recno : Nat
  child : Nat
deriving DecidableEq, Repr

/-- One `XDXNode`. -/
structure XNode where
  is_leaf : Bool
  entries : List XEntry
  right_child : Nat
deriving DecidableEq, Repr

/-- Node store plus header `root_offset`. -/
structure XDXState where
  nodes : List XNode
  root : Nat
deriving DecidableEq, Repr

/-- Index configuration: header `order`, the UNIQUE flag, and the
comparator (`xdx_key_compare` with the key type and DESCENDING baked in). -/
structure XDXCfg where
  order : Nat
  unique : Bool
  cmp : List Byte → List Byte → Int

/-- xdx.c `node_read` (always succeeds on a live offset in the model). -/
def getNode (s : XDXState) (off : Nat) : Option XNode :=
  if off = 0 then none else s.nodes.get? (off - 1)

/-- xdx.c `node_write`. -/
def setNode (s : XDXState) (off : Nat) (n : XNode) : XDXState :=
  { s with nodes := s.nodes.set (off - 1) n }

/-- xdx.c `node_create`: append a blank node at the end of the file and
return its offset; bumps `node_count`. -/
def node_create (s : XDXState) (is_leaf : Bool) : XDXState × Nat :=
  ({ s with nodes := s.nodes ++ [⟨is_leaf, [], 0⟩] }, s.nodes.length + 1)

/-- Entry used for out-of-range reads; mirrors the `xcalloc` zero fill.
Every use in reachable code is guarded so the default is never observed. -/
def defaultEntry : XEntry := ⟨[], 0, 0⟩

/-- xdx.c `xdx_key_compare` for CHAR keys: `memcmp` over the key bytes
(keys all have the configured key length), normalized to sign. -/
def memcmpBytes : List Nat → List Nat → Int
  | [], [] => 0
  | [], _ :: _ => -1
  | _ :: _, [] => 1
  | a :: as, b :: bs => if a < b then -1 else if b < a then 1 else memcmpBytes as bs

/-- xdx.c `find_key_pos`, binary search: C `left`/`right` with
`hi = right + 1`; returns an exact-match index or the insert position.
The first argument is an iteration budget: `hi - lo` shrinks every step, so
a budget of at least the initial `hi - lo` makes exhaustion unreachable
(the budget-zero result equals the loop-exit result when `lo = hi`). -/
def find_key_pos_go (cfg : XDXCfg) (key : List Byte) (es : List XEntry) :
    Nat → Nat → Nat → Nat
  | 0, lo, _ => lo
  | fuel + 1, lo, hi =>
    if lo < hi then
      if cfg.cmp key (es.getD ((lo + hi - 1) / 2) defaultEntry).key = 0 then
        (lo + hi - 1) / 2
      else if cfg.cmp key (es.getD ((lo + hi - 1) / 2) defaultEntry).key < 0 then
        find_key_pos_go cfg key es fuel lo ((lo + hi - 1) / 2)
      else
        find_key_pos_go cfg key es fuel ((lo + hi - 1) / 2 + 1) hi
    else lo

/-- xdx.c `find_key_pos` entry point. -/
def find_key_pos (cfg : XDXCfg) (key : List Byte) (es : List XEntry) : Nat :=
  find_key_pos_go cfg key es es.length 0 es.length

/-- Child taken at position `pos`: `entries[pos].child_offset` inside the
entry range, else the right-most child. -/
def childAt (n : XNode) (pos : Nat) : Nat :=
  if pos < n.entries.length then (n.entries.getD pos defaultEntry).child
  else n.right_child

/-- xdx.c `split_node`.  `par = some (pOff, pIdx)` gives the parent offset
and descent index; `none` splits the root and allocates a new root.  The C
code reads `node` before the call; re-reading it here is equivalent because
the descent does not write. -/
def split_node (cfg : XDXCfg) (s : XDXState) (off : Nat)
    (par : Option (Nat × Nat)) : Option XDXState :=
  match getNode s off with
  | none => none
  | some nd =>
    let mid := nd.entries.length / 2
    let created := node_create s nd.is_leaf
    let newOff := created.2
    let sib : XNode := ⟨nd.is_leaf, nd.entries.drop (mid + 1),
                        if nd.is_leaf then 0 else nd.right_child⟩
    let midE := nd.entries.getD mid defaultEntry
    let nd' : XNode := ⟨nd.is_leaf, nd.entries.take mid,
                        if nd.is_leaf then nd.right_child else midE.child⟩
    let s2 := setNode (setNode created.1 off nd') newOff sib
    match par with
    | none =>
      let created2 := node_create s2 false
      let newRoot : XNode := ⟨false, [⟨midE.key, midE.recno, off⟩], newOff⟩
      some { setNode created2.1 created2.2 newRoot with root := created2.2 }
    | some pp =>
      match getNode s2 pp.1 with
      | none => none
      | some p =>
        let es1 := p.entries.insertIdx pp.2 ⟨midE.key, midE.recno, off⟩
        let p' : XNode :=
          if pp.2 = p.entries.length then ⟨p.is_leaf, es1, newOff⟩
          else ⟨p.is_leaf,
                es1.set (pp.2 + 1)
                  ⟨(es1.getD (pp.2 + 1) defaultEntry).key,
                   (es1.getD (pp.2 + 1) defaultEntry).recno, newOff⟩,
                p.right_child⟩
        some (setNode s2 pp.1 p')

/-- Result of the descent phase of `xdx_insert`. -/
inductive DescRes
  | dup
  | fail
  | leaf (off : Nat) (par : Option (Nat × Nat))
deriving DecidableEq, Repr

/-- The `while (!node->header.is_leaf)` descent of xdx.c `xdx_insert`,
with the UNIQUE duplicate check at internal nodes. -/
def ins_descend (cfg : XDXCfg) (s : XDXState) (key : List Byte) :
    Nat → Nat → Option (Nat × Nat) → DescRes
  | 0, _, _ => .fail
  | fuel + 1, off, par =>
    match getNode s off with
    | none => .fail
    | some n =>
      if n.is_leaf then .leaf off par
      else
        if cfg.unique &&
           decide (find_key_pos cfg key n.entries < n.entries.length) &&
           decide (cfg.cmp key
             ((n.entries.getD (find_key_pos cfg key n.entries) defaultEntry)).key = 0)
        then .dup
        else ins_descend cfg s key fuel (childAt n (find_key_pos cfg key n.entries))
               (some (off, find_key_pos cfg key n.entries))

/-- Result channel of `xdx_insert`: `ok` is C `true`; `dup` is C `false`
after `error_set(ERR_DUPLICATE_KEY, ...)`; `fail` covers the I/O-error
returns (unreachable in the model) and fuel exhaustion. -/
inductive InsRes
  | ok
  | dup
  | fail
deriving DecidableEq, Repr

/-- The shift-insert of a (key, recno) at `pos` in a leaf.  The C loop
moves only `key` and `recno`; each slot's `child_offset` keeps its previous
per-position value (slot `count` was zeroed by `xcalloc`), and leaf child
slots are never read. -/
def leafInsertAt (es : List XEntry) (pos : Nat) (key : List Byte)
    (recno : Nat) : List XEntry :=
  List.zipWith (fun kr c => XEntry.mk kr.1 kr.2 c)
    (List.insertIdx pos (key, recno) (es.map fun e => (e.key, e.recno)))
    ((es.map fun e => e.child) ++ [0])

/-- xdx.c `xdx_insert`, with an iteration budget for the split-retry loop
(one retry suffices on well-formed trees; exhaustion reports `fail`). -/
def xdx_insert_loop (cfg : XDXCfg) :
    Nat → XDXState → List Byte → Nat → XDXState × InsRes
  | 0, s, _, _ => (s, .fail)
  | fuel + 1, s, key, recno =>
    match ins_descend cfg s key (s.nodes.length + 1) s.root none with
    | .fail => (s, .fail)
    | .dup => (s, .dup)
    | .leaf off par =>
      match getNode s off with
      | none => (s, .fail)
      | some n =>
        if cfg.unique && n.entries.any (fun e => decide (cfg.cmp key e.key = 0))
        then (s, .dup)
        else
          if n.entries.length ≥ cfg.order - 1 then
            match split_node cfg s off par with
            | none => (s, .fail)
            | some s2 => xdx_insert_loop cfg fuel s2 key recno
          else
            (setNode s off ⟨n.is_leaf,
               leafInsertAt n.entries (find_key_pos cfg key n.entries) key recno,
               n.right_child⟩, .ok)

/-- xdx.c `xdx_insert` entry point. -/
def xdx_insert (cfg : XDXCfg) (s : XDXState) (key : List Byte)
    (recno : Nat) : XDXState × InsRes :=
  xdx_insert_loop cfg 2 s key recno

/-- xdx.c `xdx_seek` traversal; returns `(found, current_recno)`.  A child
read failure exits the C loop with the initialized `(false, 0)`. -/
def seekGo (cfg : XDXCfg) (s : XDXState) (key : List Byte) :
    Nat → Nat → Bool × Nat
  | 0, _ => (false, 0)
  | fuel + 1, off =>
    match getNode s off with
    | none => (false, 0)
    | some n =>
      if n.is_leaf then
        match n.entries.get? (find_key_pos cfg key n.entries) with
        | some e =>
          if cfg.cmp key e.key = 0 then (true, e.recno)
          else if cfg.cmp key e.key < 0 then (false, e.recno)
          else (false, 0)
        | none => (false, 0)
      else
        if decide (find_key_pos cfg key n.entries < n.entries.length) &&
           decide (cfg.cmp key
             ((n.entries.getD (find_key_pos cfg key n.entries) defaultEntry)).key = 0)
        then (true, (n.entries.getD (find_key_pos cfg key n.entries) defaultEntry).recno)
        else seekGo cfg s key fuel (childAt n (find_key_pos cfg key n.entries))

/-- xdx.c `xdx_seek` entry point. -/
def xdx_seek (cfg : XDXCfg) (s : XDXState) (key : List Byte) : Bool × Nat :=
  seekGo cfg s key (s.nodes.length + 1) s.root

/-- All (key, recno) entries of the subtree at `off`, to bounded depth. -/
def collectKidsAux (g : Nat → List (List Byte × Nat)) :
    List XEntry → Nat → List (List Byte × Nat)
  | [], rc => g rc
  | e :: rest, rc => g e.child ++ collectKidsAux g rest rc

/-- Entries of the subtree at `off` (internal-node entries included — they
carry record numbers too). -/
def collectE (s : XDXState) : Nat → Nat → List (List Byte × Nat)
  | 0, _ => []
  | fuel + 1, off =>
    match getNode s off with
    | none => []
    | some n =>
      (n.entries.map fun e => (e.key, e.recno)) ++
      (if n.is_leaf then [] else collectKidsAux (collectE s fuel) n.entries n.right_child)

/-- The C4 evaluation configuration: an order-4 index (a legal `.xdx`
header value — `xdx_open` accepts any stored order), non-unique, CHAR
comparator. -/
def c4cfg : XDXCfg := ⟨4, false, memcmpBytes⟩

/-- A freshly created index: one empty leaf root (`xdx_create`). -/
def emptyXdx : XDXState := ⟨[⟨true, [], 0⟩], 1⟩

/-- Insert a list of (key, recno) pairs in order. -/
def insertAll (cfg : XDXCfg) (s : XDXState)
    (ks : List (List Byte × Nat)) : XDXState :=
  ks.foldl (fun st kr => (xdx_insert cfg st kr.1 kr.2).1) s

/-- Claim C4, failing run: twelve ascending single-byte keys into an
order-4 tree.  Promoted median keys are pushed into the root parent without
any fullness check (internal nodes are never split), so the root ends up
holding five keys — more than `order`.  In the C code this very step writes
`entries[order]`, past the end of the `xcalloc`'d entry array. -/
theorem C4_internal_node_overflows :
    (insertAll c4cfg emptyXdx
        ((List.range 12).map (fun i => ([i + 1], i + 1)))).nodes.any
      (fun nd => decide (nd.entries.length > c4cfg.order)) = true := by
  decide

/-! ## Comparator laws

`xdx_key_compare` is a total preorder for every key type: CHAR and DATE are
`memcmp`, NUMERIC compares parsed numeric values, and DESCENDING negates the
sign.  The B-tree lemmas are stated for any comparator with these
properties; `memcmpBytes` (the CHAR instance) is proved to satisfy them. -/

/-- The ordering laws of a key comparator: antisymmetric signs,
transitivity of strict comparison, and substitutivity of comparator
equality. -/
structure CmpLaws (cmp : List Byte → List Byte → Int) : Prop where
  symm : ∀ a b, cmp a b = - cmp b a
  trans_lt : ∀ a b c, cmp a b < 0 → cmp b c < 0 → cmp a c < 0
  congr_l : ∀ a b, cmp a b = 0 → ∀ c, cmp a c = cmp b c

namespace CmpLaws

variable {cmp : List Byte → List Byte → Int}

theorem refl (h : CmpLaws cmp) (a : List Byte) : cmp a a = 0 := by
  have := h.symm a a
  omega

theorem congr_r (h : CmpLaws cmp) {a b : List Byte} (hab : cmp a b = 0)
    (c : List Byte) : cmp c a = cmp c b := by
  have h1 := h.symm c a
  have h2 := h.symm c b
  have h3 := h.congr_l a b hab c
  omega

theorem lt_of_lt_of_le (h : CmpLaws cmp) {a b c : List Byte}
    (h1 : cmp a b < 0) (h2 : cmp b c ≤ 0) : cmp a c < 0 := by
  rcases lt_or_eq_of_le h2 with hlt | heq
  · exact h.trans_lt a b c h1 hlt
  · have := h.congr_r heq a
    omega

theorem lt_of_le_of_lt (h : CmpLaws cmp) {a b c : List Byte}
    (h1 : cmp a b ≤ 0) (h2 : cmp b c < 0) : cmp a c < 0 := by
  rcases lt_or_eq_of_le h1 with hlt | heq
  · exact h.trans_lt a b c hlt h2
  · have := h.congr_l a b (by omega) c
    omega

theorem le_trans (h : CmpLaws cmp) {a b c : List Byte}
    (h1 : cmp a b ≤ 0) (h2 : cmp b c ≤ 0) : cmp a c ≤ 0 := by
  rcases lt_or_eq_of_le h2 with hlt | heq
  · exact le_of_lt (h.lt_of_le_of_lt h1 hlt)
  · have := h.congr_r heq a
    omega

end CmpLaws

theorem memcmpBytes_eq_zero : ∀ a b : List Nat, memcmpBytes a b = 0 ↔ a = b
  | [], [] => by simp [memcmpBytes]
  | [], _ :: _ => by simp [memcmpBytes]
  | _ :: _, [] => by simp [memcmpBytes]
  | a :: as, b :: bs => by
    simp only [memcmpBytes]
    by_cases h1 : a < b
    · rw [if_pos h1]
      constructor
      · intro h
        exact absurd h (by decide)
      · intro h
        cases h
        omega
    by_cases h2 : b < a
    · rw [if_neg h1, if_pos h2]
      constructor
      · intro h
        exact absurd h (by decide)
      · intro h
        cases h
        omega
    · have hab : a = b := by omega
      subst hab
      rw [if_neg h1, if_neg h2, memcmpBytes_eq_zero as bs]
      simp

theorem memcmpBytes_symm : ∀ a b : List Nat, memcmpBytes a b = - memcmpBytes b a
  | [], [] => by simp [memcmpBytes]
  | [], _ :: _ => by simp [memcmpBytes]
  | _ :: _, [] => by simp [memcmpBytes]
  | a :: as, b :: bs => by
    simp only [memcmpBytes]
    by_cases h1 : a < b
    · rw [if_pos h1, if_neg (by omega : ¬ b < a), if_pos h1]
      try decide
    by_cases h2 : b < a
    · rw [if_neg h1, if_pos h2, if_pos h2]
      try decide
    · rw [if_neg h1, if_neg h2, if_neg h2, if_neg h1]
      exact memcmpBytes_symm as bs

theorem memcmpBytes_trans_lt : ∀ a b c : List Nat,
    memcmpBytes a b < 0 → memcmpBytes b c < 0 → memcmpBytes a c < 0
  | [], [], _, h1, _ => by simp [memcmpBytes] at h1
  | [], b :: bs, [], _, h2 => by simp [memcmpBytes] at h2
  | [], b :: bs, c :: cs, _, _ => by simp [memcmpBytes]
  | a :: as, [], _, h1, _ => by simp [memcmpBytes] at h1
  | a :: as, b :: bs, [], _, h2 => by simp [memcmpBytes] at h2
  | a :: as, b :: bs, c :: cs, h1, h2 => by
    simp only [memcmpBytes] at h1 h2 ⊢
    by_cases hab : a < b
    · rw [if_pos hab] at h1
      by_cases hbc : b < c
      · rw [if_pos (by omega : a < c)]
        decide
      by_cases hcb : c < b
      · rw [if_neg hbc, if_pos hcb] at h2
        omega
      · have : b = c := by omega
        subst this
        rw [if_pos hab]
        decide
    by_cases hba : b < a
    · rw [if_neg hab, if_pos hba] at h1
      omega
    · have hab' : a = b := by omega
      subst hab'
      rw [if_neg hab, if_neg hba] at h1
      by_cases hac : a < c
      · rw [if_pos hac]
        decide
      by_cases hca : c < a
      · rw [if_neg hac, if_pos hca] at h2
        omega
      · rw [if_neg hac, if_neg hca] at h2 ⊢
        exact memcmpBytes_trans_lt as bs cs h1 h2

theorem memcmpBytes_laws : CmpLaws memcmpBytes where
  symm := memcmpBytes_symm
  trans_lt := memcmpBytes_trans_lt
  congr_l := by
    intro a b hab c
    rw [(memcmpBytes_eq_zero a b).mp hab]

/-! ## Sorted nodes and binary-search lemmas -/

/-- Adjacent non-decreasing order of a node's entries under the
comparator. -/
def chainLeB (cmp : List Byte → List Byte → Int) : List XEntry → Bool
  | [] => true
  | [_] => true
  | a :: b :: t => decide (cmp a.key b.key ≤ 0) && chainLeB cmp (b :: t)

theorem getD_eq_getElem {α : Type _} :
    ∀ (l : List α) (d : α) (i : Nat) (h : i < l.length), l.getD i d = l[i]
  | a :: _, d, 0, _ => rfl
  | _ :: t, d, i + 1, h => by
    simp only [List.getD_cons_succ, List.getElem_cons_succ]
    exact getD_eq_getElem t d i (by simpa using h)

theorem chainLeB_adj {cmp : List Byte → List Byte → Int} :
    ∀ (es : List XEntry), chainLeB cmp es = true →
      ∀ i, i + 1 < es.length →
        cmp (es.getD i defaultEntry).key (es.getD (i + 1) defaultEntry).key ≤ 0
  | [], _, i, h => by simp at h
  | [_], _, i, h => by simp at h
  | a :: b :: t, h, 0, _ => by
    simp only [chainLeB, Bool.and_eq_true, decide_eq_true_eq] at h
    simpa using h.1
  | a :: b :: t, h, i + 1, hlen => by
    simp only [chainLeB, Bool.and_eq_true] at h
    simpa using chainLeB_adj (b :: t) h.2 i (by simpa using hlen)

theorem chainLeB_le {cmp : List Byte → List Byte → Int} (laws : CmpLaws cmp)
    (es : List XEntry) (h : chainLeB cmp es = true) :
    ∀ j i, i ≤ j → j < es.length →
      cmp (es.getD i defaultEntry).key (es.getD j defaultEntry).key ≤ 0 := by
  intro j
  induction j with
  | zero =>
    intro i hij _
    have : i = 0 := by omega
    subst this
    exact le_of_eq (laws.refl _)
  | succ j ih =>
    intro i hij hlen
    rcases Nat.lt_or_ge i (j + 1) with hlt | hge
    · have h1 := ih i (by omega) (by omega)
      have h2 := chainLeB_adj es h j hlen
      exact laws.le_trans h1 h2
    · have : i = j + 1 := by omega
      subst this
      exact le_of_eq (laws.refl _)

/-- The binary search stays inside `[lo, hi]` (budget permitting). -/
theorem find_go_bounds (cfg : XDXCfg) (key : List Byte) (es : List XEntry) :
    ∀ (fuel lo hi : Nat), hi - lo ≤ fuel → lo ≤ hi →
      lo ≤ find_key_pos_go cfg key es fuel lo hi ∧
      find_key_pos_go cfg key es fuel lo hi ≤ hi := by
  intro fuel
  induction fuel with
  | zero =>
    intro lo hi hb hlh
    simp only [find_key_pos_go]
    omega
  | succ fuel ih =>
    intro lo hi hb hlh
    simp only [find_key_pos_go]
    split
    · rename_i hlt
      have hmid1 : lo ≤ (lo + hi - 1) / 2 := by
        rw [Nat.le_div_iff_mul_le (by omega)]
        omega
      have hmid2 : (lo + hi - 1) / 2 < hi := by
        rw [Nat.div_lt_iff_lt_mul (by omega)]
        omega
      split
      · omega
      split
      · have := ih lo ((lo + hi - 1) / 2) (by omega) (by omega)
        omega
      · have := ih ((lo + hi - 1) / 2 + 1) hi (by omega) (by omega)
        omega
    · omega

/-- When some entry in `[lo, hi)` is comparator-equal to the key and the
entries are sorted, the binary search lands on a comparator-equal entry. -/
theorem find_go_found (cfg : XDXCfg) (key : List Byte) (es : List XEntry)
    (laws : CmpLaws cfg.cmp) (hsort : chainLeB cfg.cmp es = true) :
    ∀ (fuel lo hi : Nat), hi - lo ≤ fuel → hi ≤ es.length →
      (∃ j, lo ≤ j ∧ j < hi ∧ cfg.cmp key (es.getD j defaultEntry).key = 0) →
      find_key_pos_go cfg key es fuel lo hi < es.length ∧
      cfg.cmp key (es.getD (find_key_pos_go cfg key es fuel lo hi) defaultEntry).key = 0 := by
  intro fuel
  induction fuel with
  | zero =>
    intro lo hi hb _ hex
    obtain ⟨j, h1, h2, _⟩ := hex
    omega
  | succ fuel ih =>
    intro lo hi hb hhi hex
    obtain ⟨j, hj1, hj2, hj3⟩ := hex
    simp only [find_key_pos_go]
    rw [if_pos (by omega)]
    have hmid1 : lo ≤ (lo + hi - 1) / 2 := by
      rw [Nat.le_div_iff_mul_le (by omega)]
      omega
    have hmid2 : (lo + hi - 1) / 2 < hi := by
      rw [Nat.div_lt_iff_lt_mul (by omega)]
      omega
    split
    · rename_i hc0
      exact ⟨by omega, hc0⟩
    split
    · rename_i hc0 hclt
      apply ih lo ((lo + hi - 1) / 2) (by omega) (by omega)
      refine ⟨j, hj1, ?_, hj3⟩
      -- the equal entry cannot be at or beyond mid
      by_contra hge
      push_neg at hge
      rcases Nat.lt_or_ge j ((lo + hi - 1) / 2) with h | hge'
      · omega
      · have hle := chainLeB_le laws es hsort j ((lo + hi - 1) / 2) hge' (by omega)
        have := laws.congr_l key (es.getD j defaultEntry).key hj3
          (es.getD ((lo + hi - 1) / 2) defaultEntry).key
        have hsy := laws.symm (es.getD ((lo + hi - 1) / 2) defaultEntry).key
          (es.getD j defaultEntry).key
        omega
    · rename_i hc0 hclt
      apply ih ((lo + hi - 1) / 2 + 1) hi (by omega) hhi
      refine ⟨j, ?_, hj2, hj3⟩
      by_contra hlt'
      push_neg at hlt'
      rcases Nat.lt_or_ge j ((lo + hi - 1) / 2) with h | hge'
      · have hle := chainLeB_le laws es hsort ((lo + hi - 1) / 2) j (by omega) (by omega)
        have := laws.congr_l key (es.getD j defaultEntry).key hj3
          (es.getD ((lo + hi - 1) / 2) defaultEntry).key
        omega
      · have : j = (lo + hi - 1) / 2 := by omega
        subst this
        omega

/-- When no entry is comparator-equal to the key and the entries are
sorted, the binary search returns the lower bound: everything before the
result is strictly smaller than the key, everything from it on strictly
greater. -/
theorem find_go_char (cfg : XDXCfg) (key : List Byte) (es : List XEntry)
    (laws : CmpLaws cfg.cmp) (hsort : chainLeB cfg.cmp es = true)
    (hne : ∀ j, j < es.length → cfg.cmp key (es.getD j defaultEntry).key ≠ 0) :
    ∀ (fuel lo hi : Nat), hi - lo ≤ fuel → lo ≤ hi → hi ≤ es.length →
      (∀ j, j < lo → j < es.length → 0 < cfg.cmp key (es.getD j defaultEntry).key) →
      (∀ j, hi ≤ j → j < es.length → cfg.cmp key (es.getD j defaultEntry).key < 0) →
      (∀ j, j < find_key_pos_go cfg key es fuel lo hi → j < es.length →
        0 < cfg.cmp key (es.getD j defaultEntry).key) ∧
      (∀ j, find_key_pos_go cfg key es fuel lo hi ≤ j → j < es.length →
        cfg.cmp key (es.getD j defaultEntry).key < 0) ∧
      find_key_pos_go cfg key es fuel lo hi ≤ es.length := by
  intro fuel
  induction fuel with
  | zero =>
    intro lo hi hb hlh hhi hlow hhigh
    have : lo = hi := by omega
    subst this
    simp only [find_key_pos_go]
    exact ⟨fun j h1 h2 => hlow j h1 h2, fun j h1 h2 => hhigh j h1 h2, by omega⟩
  | succ fuel ih =>
    intro lo hi hb hlh hhi hlow hhigh
    simp only [find_key_pos_go]
    split
    · rename_i hlt
      have hmid1 : lo ≤ (lo + hi - 1) / 2 := by
        rw [Nat.le_div_iff_mul_le (by omega)]
        omega
      have hmid2 : (lo + hi - 1) / 2 < hi := by
        rw [Nat.div_lt_iff_lt_mul (by omega)]
        omega
      have hcne := hne ((lo + hi - 1) / 2) (by omega)
      split
      · rename_i hc0
        exact absurd hc0 hcne
      split
      · rename_i hc0 hclt
        apply ih lo ((lo + hi - 1) / 2) (by omega) (by omega) (by omega) hlow
        intro j hj1 hj2
        rcases Nat.lt_or_ge j hi with h | h
        · have hle := chainLeB_le laws es hsort j ((lo + hi - 1) / 2) hj1 hj2
          exact laws.lt_of_lt_of_le hclt hle
        · exact hhigh j h hj2
      · rename_i hc0 hclt
        have hcgt : 0 < cfg.cmp key (es.getD ((lo + hi - 1) / 2) defaultEntry).key := by
          omega
        apply ih ((lo + hi - 1) / 2 + 1) hi (by omega) (by omega) hhi
        · intro j hj1 hj2
          rcases Nat.lt_or_ge j lo with h | h
          · exact hlow j h hj2
          · rcases Nat.lt_or_ge j ((lo + hi - 1) / 2) with h' | h'
            · have hle := chainLeB_le laws es hsort ((lo + hi - 1) / 2) j (by omega) (by omega)
              have h1 := laws.symm key (es.getD ((lo + hi - 1) / 2) defaultEntry).key
              have h2 := laws.lt_of_le_of_lt hle
                (show cfg.cmp (es.getD ((lo + hi - 1) / 2) defaultEntry).key key < 0 by omega)
              have h3 := laws.symm (es.getD j defaultEntry).key key
              omega
            · have : j = (lo + hi - 1) / 2 := by omega
              subst this
              exact hcgt
        · exact hhigh
    · exact ⟨fun j h1 h2 => hlow j (by omega) h2, fun j h1 h2 => hhigh j (by omega) h2,
        by omega⟩

/-! ## Search-tree well-formedness

`goodSub cfg s fuel off lo hi` says the subtree rooted at `off` is a valid
search structure of depth at most `fuel`: every node exists, its entries
lie within the open interval `(lo, hi)` and are sorted, and each child
subtree respects the separator keys — exactly the invariant `xdx_insert`
maintains (split keeps `< median` left, `> median` right). -/

/-- Key within the optional bounds (`none` = unbounded side). -/
def boundOkB (cmp : List Byte → List Byte → Int)
    (lo hi : Option (List Byte)) (k : List Byte) : Bool :=
  (match lo with
   | none => true
   | some l => decide (cmp l k ≤ 0)) &&
  (match hi with
   | none => true
   | some h => decide (cmp k h ≤ 0))

/-- Check every child of an internal node against the separator bounds:
child `i` lives between entry `i-1` and entry `i`; the right-most child
between the last entry and the node's upper bound. -/
def goodKidsAux (g : Nat → Option (List Byte) → Option (List Byte) → Bool) :
    Option (List Byte) → List XEntry → Nat → Option (List Byte) → Bool
  | lo, [], rc, hi => g rc lo hi
  | lo, e :: rest, rc, hi =>
    g e.child lo (some e.key) && goodKidsAux g (some e.key) rest rc hi

/-- Search-tree well-formedness to bounded depth. -/
def goodSub (cfg : XDXCfg) (s : XDXState) :
    Nat → Nat → Option (List Byte) → Option (List Byte) → Bool
  | 0, _, _, _ => false
  | fuel + 1, off, lo, hi =>
    match getNode s off with
    | none => false
    | some n =>
      n.entries.all (fun e => boundOkB cfg.cmp lo hi e.key) &&
      chainLeB cfg.cmp n.entries &&
      (n.is_leaf || goodKidsAux (goodSub cfg s fuel) lo n.entries n.right_child hi)

/-- Child offset at descent position `i` of an entry list (the body of
`childAt` over the raw parts). -/
def childAtL (es : List XEntry) (rc : Nat) (i : Nat) : Nat :=
  if i < es.length then (es.getD i defaultEntry).child else rc

/-- Lower separator of child `i`. -/
def boundL (es : List XEntry) (lo : Option (List Byte)) (i : Nat) :
    Option (List Byte) :=
  if i = 0 then lo else some (es.getD (i - 1) defaultEntry).key

/-- Upper separator of child `i`. -/
def boundR (es : List XEntry) (hi : Option (List Byte)) (i : Nat) :
    Option (List Byte) :=
  if i < es.length then some (es.getD i defaultEntry).key else hi

theorem childAt_eq (n : XNode) (i : Nat) :
    childAt n i = childAtL n.entries n.right_child i := rfl

/-- Bound `LO` is weaker as a lower bound than `lo`. -/
def looser (cmp : List Byte → List Byte → Int) :
    Option (List Byte) → Option (List Byte) → Prop
  | none, _ => True
  | some L, some l => cmp L l ≤ 0
  | some _, none => False

/-- Bound `HI` is weaker as an upper bound than `hi`. -/
def looseHi (cmp : List Byte → List Byte → Int) :
    Option (List Byte) → Option (List Byte) → Prop
  | none, _ => True
  | some H, some h => cmp h H ≤ 0
  | some _, none => False

theorem looser_refl {cmp : List Byte → List Byte → Int} (laws : CmpLaws cmp)
    (lo : Option (List Byte)) : looser cmp lo lo := by
  cases lo with
  | none => trivial
  | some l => exact le_of_eq (laws.refl l)

theorem looseHi_refl {cmp : List Byte → List Byte → Int} (laws : CmpLaws cmp)
    (hi : Option (List Byte)) : looseHi cmp hi hi := by
  cases hi with
  | none => trivial
  | some h => exact le_of_eq (laws.refl h)

theorem boundOk_widen {cmp : List Byte → List Byte → Int} (laws : CmpLaws cmp)
    {LO lo' HI hi' : Option (List Byte)} {k : List Byte}
    (hl : looser cmp LO lo') (hh : looseHi cmp HI hi')
    (h : boundOkB cmp lo' hi' k = true) : boundOkB cmp LO HI k = true := by
  simp only [boundOkB, Bool.and_eq_true] at h ⊢
  obtain ⟨h1, h2⟩ := h
  constructor
  · cases LO with
    | none => rfl
    | some L =>
      cases lo' with
      | none => exact absurd hl (by simp [looser])
      | some l =>
        simp only [decide_eq_true_eq] at h1 ⊢
        exact laws.le_trans (by simpa [looser] using hl) h1
  · cases HI with
    | none => rfl
    | some H =>
      cases hi' with
      | none => exact absurd hh (by simp [looseHi])
      | some h' =>
        simp only [decide_eq_true_eq] at h2 ⊢
        exact laws.le_trans h2 (by simpa [looseHi] using hh)

/-- Index form of `goodKidsAux`: the child at descent position `i` is good
for the separator interval of position `i`. -/
theorem goodKids_index (g : Nat → Option (List Byte) → Option (List Byte) → Bool)
    (hi : Option (List Byte)) :
    ∀ (es : List XEntry) (rc : Nat) (lo : Option (List Byte)),
      goodKidsAux g lo es rc hi = true →
      ∀ i, i ≤ es.length →
        g (childAtL es rc i) (boundL es lo i) (boundR es hi i) = true
  | [], rc, lo, h, i, hle => by
    have : i = 0 := by simpa using hle
    subst this
    simpa [childAtL, boundL, boundR] using h
  | e :: rest, rc, lo, h, i, hle => by
    simp only [goodKidsAux, Bool.and_eq_true] at h
    cases i with
    | zero =>
      simpa [childAtL, boundL, boundR] using h.1
    | succ i =>
      have := goodKids_index g hi rest rc (some e.key) h.2 i (by simpa using hle)
      have hchild : childAtL (e :: rest) rc (i + 1) = childAtL rest rc i := by
        simp [childAtL, List.getD_cons_succ]
      have hbl : boundL (e :: rest) lo (i + 1) = boundL rest (some e.key) i := by
        cases i with
        | zero => simp [boundL]
        | succ j => simp [boundL, List.getD_cons_succ]
      have hbr : boundR (e :: rest) hi (i + 1) = boundR rest hi i := by
        simp [boundR, List.getD_cons_succ]
      rw [hchild, hbl, hbr]
      exact this

/-- Membership in the children's collection localizes to one child. -/
theorem collectKids_local (g : Nat → List (List Byte × Nat)) :
    ∀ (es : List XEntry) (rc : Nat) (x : List Byte × Nat),
      x ∈ collectKidsAux g es rc →
      ∃ i, i ≤ es.length ∧ x ∈ g (childAtL es rc i)
  | [], rc, x, h => ⟨0, by omega, by simpa [collectKidsAux, childAtL] using h⟩
  | e :: rest, rc, x, h => by
    simp only [collectKidsAux, List.mem_append] at h
    rcases h with h | h
    · exact ⟨0, by omega, by simpa [childAtL] using h⟩
    · obtain ⟨i, hle, hmem⟩ := collectKids_local g rest rc x h
      refine ⟨i + 1, by simpa using hle, ?_⟩
      have : childAtL (e :: rest) rc (i + 1) = childAtL rest rc i := by
        simp [childAtL, List.getD_cons_succ]
      rwa [this]

/-- Conversely, anything in child `i`'s collection is in the children's
collection. -/
theorem collectKids_of_child (g : Nat → List (List Byte × Nat)) :
    ∀ (es : List XEntry) (rc : Nat) (i : Nat), i ≤ es.length →
      ∀ x, x ∈ g (childAtL es rc i) → x ∈ collectKidsAux g es rc
  | [], rc, i, hle, x, h => by
    have : i = 0 := by simpa using hle
    subst this
    simpa [collectKidsAux, childAtL] using h
  | e :: rest, rc, 0, _, x, h => by
    simp only [collectKidsAux, List.mem_append]
    exact Or.inl (by simpa [childAtL] using h)
  | e :: rest, rc, i + 1, hle, x, h => by
    simp only [collectKidsAux, List.mem_append]
    refine Or.inr (collectKids_of_child g rest rc i (by simpa using hle) x ?_)
    have : childAtL (e :: rest) rc (i + 1) = childAtL rest rc i := by
      simp [childAtL, List.getD_cons_succ]
    rwa [this] at h

/-- Helper: project the all-bounds check of a node at an index. -/
theorem allBound_index {cmp : List Byte → List Byte → Int}
    {lo hi : Option (List Byte)} {es : List XEntry}
    (h : es.all (fun e => boundOkB cmp lo hi e.key) = true)
    (j : Nat) (hj : j < es.length) :
    boundOkB cmp lo hi (es.getD j defaultEntry).key = true :=
  List.all_eq_true.mp h _ (getD_mem _ j _ hj)

/-- Every collected key of a good subtree lies within the subtree's
bounds. -/
theorem collect_bounds {cfg : XDXCfg} {s : XDXState} (laws : CmpLaws cfg.cmp) :
    ∀ (fuel off : Nat) (lo hi : Option (List Byte)),
      goodSub cfg s fuel off lo hi = true →
      ∀ kr ∈ collectE s fuel off, boundOkB cfg.cmp lo hi kr.1 = true := by
  intro fuel
  induction fuel with
  | zero =>
    intro off lo hi hg
    simp [goodSub] at hg
  | succ fuel ih =>
    intro off lo hi hg kr hmem
    simp only [goodSub] at hg
    rcases hn : getNode s off with _ | n
    · rw [hn] at hg
      simp at hg
    rw [hn] at hg
    simp only [Bool.and_eq_true] at hg
    obtain ⟨⟨hall, hchain⟩, hrest⟩ := hg
    simp only [collectE, hn] at hmem
    rw [List.mem_append] at hmem
    rcases hmem with hmem | hmem
    · obtain ⟨e, he, heq⟩ := List.mem_map.mp hmem
      have : kr.1 = e.key := by rw [← heq]
      rw [this]
      exact List.all_eq_true.mp hall e he
    · rcases hleaf : n.is_leaf with _ | _
      · rw [hleaf] at hmem
        simp only [Bool.false_eq_true, if_false] at hmem
        rw [hleaf] at hrest
        simp only [Bool.false_or] at hrest
        obtain ⟨i, hile, hchild⟩ := collectKids_local _ n.entries n.right_child kr hmem
        have hkid := goodKids_index _ hi n.entries n.right_child lo hrest i hile
        have hb := ih _ _ _ hkid kr hchild
        apply boundOk_widen laws ?_ ?_ hb
        · -- the lower separator is within (lo, hi)
          simp only [boundL]
          split
          · exact looser_refl laws lo
          · rename_i hiz
            cases lo with
            | none => trivial
            | some L =>
              have hbj := allBound_index hall (i - 1) (by omega)
              simp only [boundOkB, Bool.and_eq_true, decide_eq_true_eq] at hbj
              exact hbj.1
        · simp only [boundR]
          split
          · rename_i hilt
            cases hi with
            | none => trivial
            | some H =>
              have hbj := allBound_index hall i hilt
              simp only [boundOkB, Bool.and_eq_true, decide_eq_true_eq] at hbj
              exact hbj.2
          · exact looseHi_refl laws hi
      · rw [hleaf] at hmem
        simp at hmem

/-! ## Claim C2: UNIQUE insert of a present key -/

theorem find_key_pos_le (cfg : XDXCfg) (key : List Byte) (es : List XEntry) :
    find_key_pos cfg key es ≤ es.length :=
  (find_go_bounds cfg key es es.length 0 es.length (by omega) (by omega)).2

theorem find_key_pos_found (cfg : XDXCfg) (key : List Byte) (es : List XEntry)
    (laws : CmpLaws cfg.cmp) (hsort : chainLeB cfg.cmp es = true)
    (hex : ∃ j, j < es.length ∧ cfg.cmp key (es.getD j defaultEntry).key = 0) :
    find_key_pos cfg key es < es.length ∧
    cfg.cmp key (es.getD (find_key_pos cfg key es) defaultEntry).key = 0 := by
  obtain ⟨j, hj1, hj2⟩ := hex
  exact find_go_found cfg key es laws hsort es.length 0 es.length (by omega)
    (by omega) ⟨j, by omega, hj1, hj2⟩

theorem find_key_pos_char (cfg : XDXCfg) (key : List Byte) (es : List XEntry)
    (laws : CmpLaws cfg.cmp) (hsort : chainLeB cfg.cmp es = true)
    (hne : ∀ j, j < es.length → cfg.cmp key (es.getD j defaultEntry).key ≠ 0) :
    (∀ j, j < find_key_pos cfg key es → j < es.length →
      0 < cfg.cmp key (es.getD j defaultEntry).key) ∧
    (∀ j, find_key_pos cfg key es ≤ j → j < es.length →
      cfg.cmp key (es.getD j defaultEntry).key < 0) ∧
    find_key_pos cfg key es ≤ es.length :=
  find_go_char cfg key es laws hsort hne es.length 0 es.length (by omega)
    (by omega) (by omega) (fun j h1 _ => by omega) (fun j h1 h2 => by omega)

/-- Core of claim C2: on a good subtree containing a comparator-equal key,
the `xdx_insert` descent either reports the duplicate at an internal node
or reaches the (existing) leaf that contains the equal key, where the leaf
scan will report it. -/
theorem insert_descend_finds {cfg : XDXCfg} {s : XDXState}
    (laws : CmpLaws cfg.cmp) (hu : cfg.unique = true) (key : List Byte) :
    ∀ (fuel off : Nat) (lo hi : Option (List Byte)),
      goodSub cfg s fuel off lo hi = true →
      ∀ k' r', (k', r') ∈ collectE s fuel off → cfg.cmp key k' = 0 →
      ∀ dfuel, fuel ≤ dfuel → ∀ par,
        ins_descend cfg s key dfuel off par = DescRes.dup ∨
        ∃ off2 par2 n, ins_descend cfg s key dfuel off par = DescRes.leaf off2 par2 ∧
          getNode s off2 = some n ∧ n.is_leaf = true ∧
          (n.entries.any fun e => decide (cfg.cmp key e.key = 0)) = true := by
  intro fuel
  induction fuel with
  | zero =>
    intro off lo hi hg
    simp [goodSub] at hg
  | succ fuel ih =>
    intro off lo hi hg k' r' hmem heqk dfuel hdf par
    simp only [goodSub] at hg
    rcases hn : getNode s off with _ | n
    · rw [hn] at hg
      simp at hg
    rw [hn] at hg
    simp only [Bool.and_eq_true] at hg
    obtain ⟨⟨hall, hchain⟩, hrest⟩ := hg
    obtain ⟨d, rfl⟩ : ∃ d, dfuel = d + 1 := ⟨dfuel - 1, by omega⟩
    simp only [collectE, hn] at hmem
    rw [List.mem_append] at hmem
    rcases hleaf : n.is_leaf with _ | _
    · -- internal node
      rw [hleaf] at hrest
      simp only [Bool.false_or] at hrest
      by_cases hany : (n.entries.any fun e => decide (cfg.cmp key e.key = 0)) = true
      · -- an entry of this node is comparator-equal: the dup check fires
        left
        obtain ⟨e, he, heq⟩ := List.any_eq_true.mp hany
        obtain ⟨j, hjlen, hjget⟩ := List.mem_iff_getElem.mp he
        have hfound := find_key_pos_found cfg key n.entries laws hchain
          ⟨j, hjlen, by rw [getD_eq_getElem _ _ j hjlen, hjget]; simpa using heq⟩
        simp only [ins_descend, hn, hleaf, Bool.false_eq_true, if_false]
        rw [if_pos (show (cfg.unique &&
            decide (find_key_pos cfg key n.entries < n.entries.length) &&
            decide (cfg.cmp key ((n.entries.getD (find_key_pos cfg key n.entries)
              defaultEntry)).key = 0)) = true by
          simp only [Bool.and_eq_true, decide_eq_true_eq]
          exact ⟨⟨hu, hfound.1⟩, hfound.2⟩)]
      · -- no equal entry here: the search descends into the child that
        -- contains the equal key
        have hne : ∀ j, j < n.entries.length →
            cfg.cmp key (n.entries.getD j defaultEntry).key ≠ 0 := by
          intro j hj hcontra
          exact hany (List.any_eq_true.mpr
            ⟨n.entries.getD j defaultEntry, getD_mem _ j _ hj, by simpa using hcontra⟩)
        obtain ⟨hlt, hgt, hple⟩ := find_key_pos_char cfg key n.entries laws hchain hne
        rcases hmem with hmem | hmem
        · obtain ⟨e, he, heq⟩ := List.mem_map.mp hmem
          exact absurd (List.any_eq_true.mpr ⟨e, he,
            by simp [show e.key = k' from congrArg Prod.fst heq, heqk]⟩) hany
        rw [hleaf] at hmem
        simp only [Bool.false_eq_true, if_false] at hmem
        obtain ⟨i, hile, hchild⟩ := collectKids_local _ n.entries n.right_child
          (k', r') hmem
        have hkid := goodKids_index _ hi n.entries n.right_child lo hrest i hile
        have hb := collect_bounds laws fuel _ _ _ hkid (k', r') hchild
        simp only [boundOkB, Bool.and_eq_true] at hb
        -- p = i
        have hpi : find_key_pos cfg key n.entries = i := by
          have hup : find_key_pos cfg key n.entries ≤ i := by
            rcases Nat.lt_or_ge i n.entries.length with hilt | hige
            · by_contra hgt'
              push_neg at hgt'
              have hbr := hb.2
              simp only [boundR, if_pos hilt, decide_eq_true_eq] at hbr
              have : cfg.cmp key (n.entries.getD i defaultEntry).key ≤ 0 := by
                rw [laws.congr_l key k' heqk]
                exact hbr
              have := hlt i hgt' hilt
              omega
            · omega
          have hdown : i ≤ find_key_pos cfg key n.entries := by
            rcases Nat.eq_zero_or_pos i with hiz | hipos
            · omega
            · by_contra hlt'
              push_neg at hlt'
              have hbl := hb.1
              simp only [boundL, if_neg (by omega : ¬ i = 0), decide_eq_true_eq] at hbl
              have h1 : 0 < cfg.cmp key (n.entries.getD (i - 1) defaultEntry).key := by
                have h2 : cfg.cmp key (n.entries.getD (i - 1) defaultEntry).key =
                    cfg.cmp k' (n.entries.getD (i - 1) defaultEntry).key :=
                  laws.congr_l key k' heqk _
                have h3 := laws.symm k' (n.entries.getD (i - 1) defaultEntry).key
                have h4 : cfg.cmp key (n.entries.getD (i - 1) defaultEntry).key ≠ 0 :=
                  hne (i - 1) (by omega)
                omega
              have := hgt (i - 1) (by omega) (by omega)
              omega
          omega
        simp only [ins_descend, hn, hleaf, Bool.false_eq_true, if_false]
        rw [if_neg]
        · rw [childAt_eq, hpi]
          exact ih (childAtL n.entries n.right_child i) (boundL n.entries lo i)
            (boundR n.entries hi i) hkid k' r' hchild heqk d (by omega) _
        · -- the dup check is false here
          intro hcontra
          simp only [Bool.and_eq_true, decide_eq_true_eq] at hcontra
          exact hne _ hcontra.1.2 hcontra.2
    · -- leaf: the descent stops here and the equal key is among its entries
      right
      refine ⟨off, par, n, ?_, hn, hleaf, ?_⟩
      · simp [ins_descend, hn, hleaf]
      · rw [hleaf] at hmem
        simp only [if_true, List.mem_append] at hmem
        rcases hmem with hmem | hmem
        · obtain ⟨e, he, heq⟩ := List.mem_map.mp hmem
          exact List.any_eq_true.mpr ⟨e, he,
            by simp [show e.key = k' from congrArg Prod.fst heq, heqk]⟩
        · simp at hmem

/-- Claim C2: on a UNIQUE index whose tree is a well-formed search
structure, inserting a key comparator-equal to one already present returns
failure with the DuplicateKey error, and the returned state — every node,
the root offset, and hence the node count — is exactly the input state. -/
theorem C2_unique_insert_duplicate (cfg : XDXCfg) (s : XDXState)
    (key k' : List Byte) (r' recno fuel : Nat)
    (laws : CmpLaws cfg.cmp) (hu : cfg.unique = true)
    (hg : goodSub cfg s fuel s.root none none = true)
    (hmem : (k', r') ∈ collectE s fuel s.root)
    (heqk : cfg.cmp key k' = 0)
    (hfuel : fuel ≤ s.nodes.length + 1) :
    xdx_insert cfg s key recno = (s, InsRes.dup) := by
  have hdesc := insert_descend_finds laws hu key fuel s.root none none hg k' r'
    hmem heqk (s.nodes.length + 1) hfuel none
  unfold xdx_insert
  rcases hdesc with hdesc | ⟨off2, par2, n, hdesc, hn, hleaf, hany⟩
  · simp only [xdx_insert_loop, hdesc]
  · simp only [xdx_insert_loop, hdesc, hn]
    rw [if_pos (by simp [hu, hany])]

/-- Witness for C2 on a concrete two-level UNIQUE CHAR index: the tree has
root entries ["bb" → 2] with children ["aa" → 1] and ["cc" → 3]; inserting
"cc" again reports DuplicateKey and leaves the store untouched. -/
theorem C2_unique_insert_duplicate_witness :
    xdx_insert ⟨4, true, memcmpBytes⟩
      ⟨[⟨true, [⟨[97, 97], 1, 0⟩], 0⟩, ⟨true, [⟨[99, 99], 3, 0⟩], 0⟩,
        ⟨false, [⟨[98, 98], 2, 1⟩], 2⟩], 3⟩
      [99, 99] 9 =
    (⟨[⟨true, [⟨[97, 97], 1, 0⟩], 0⟩, ⟨true, [⟨[99, 99], 3, 0⟩], 0⟩,
        ⟨false, [⟨[98, 98], 2, 1⟩], 2⟩], 3⟩, InsRes.dup) :=
  C2_unique_insert_duplicate ⟨4, true, memcmpBytes⟩
    ⟨[⟨true, [⟨[97, 97], 1, 0⟩], 0⟩, ⟨true, [⟨[99, 99], 3, 0⟩], 0⟩,
      ⟨false, [⟨[98, 98], 2, 1⟩], 2⟩], 3⟩
    [99, 99] [99, 99] 3 9 2 memcmpBytes_laws rfl (by decide) (by decide)
    (by decide) (by decide)

/-! ## Claim C3: seek with no comparator-equal entry -/

/-- Behaviour of the `xdx_seek` traversal on a good subtree containing no
comparator-equal entry: `found` comes back false, and `current_recno` is
either 0 or the record number of the subtree's least comparator-greater
entry.  (It is 0 — not the successor — whenever the search key exceeds
every key of the leaf the descent lands in.) -/
theorem seek_miss {cfg : XDXCfg} {s : XDXState} (laws : CmpLaws cfg.cmp)
    (key : List Byte) :
    ∀ (fuel off : Nat) (lo hi : Option (List Byte)),
      goodSub cfg s fuel off lo hi = true →
      (∀ kr ∈ collectE s fuel off, cfg.cmp key kr.1 ≠ 0) →
      ∀ dfuel, fuel ≤ dfuel →
        (seekGo cfg s key dfuel off).1 = false ∧
        ((seekGo cfg s key dfuel off).2 = 0 ∨
         ∃ k' r', (k', r') ∈ collectE s fuel off ∧ cfg.cmp key k' < 0 ∧
           (seekGo cfg s key dfuel off).2 = r' ∧
           ∀ k'' r'', (k'', r'') ∈ collectE s fuel off → cfg.cmp key k'' < 0 →
             cfg.cmp k' k'' ≤ 0) := by
  intro fuel
  induction fuel with
  | zero =>
    intro off lo hi hg
    simp [goodSub] at hg
  | succ fuel ih =>
    intro off lo hi hg hne dfuel hdf
    simp only [goodSub] at hg
    rcases hn : getNode s off with _ | n
    · rw [hn] at hg
      simp at hg
    rw [hn] at hg
    simp only [Bool.and_eq_true] at hg
    obtain ⟨⟨hall, hchain⟩, hrest⟩ := hg
    obtain ⟨d, rfl⟩ : ∃ d, dfuel = d + 1 := ⟨dfuel - 1, by omega⟩
    have hne_idx : ∀ j, j < n.entries.length →
        cfg.cmp key (n.entries.getD j defaultEntry).key ≠ 0 := by
      intro j hj
      apply hne (((n.entries.getD j defaultEntry)).key,
        ((n.entries.getD j defaultEntry)).recno)
      simp only [collectE, hn]
      rw [List.mem_append]
      exact Or.inl (List.mem_map.mpr ⟨_, getD_mem _ j _ hj, rfl⟩)
    obtain ⟨hlt, hgt, hple⟩ := find_key_pos_char cfg key n.entries laws hchain hne_idx
    rcases hleaf : n.is_leaf with _ | _
    · -- internal node: no exact match here, so descend
      rw [hleaf] at hrest
      simp only [Bool.false_or] at hrest
      have hkid := goodKids_index _ hi n.entries n.right_child lo hrest
        (find_key_pos cfg key n.entries) hple
      have hnech : ∀ kr ∈ collectE s fuel
          (childAtL n.entries n.right_child (find_key_pos cfg key n.entries)),
          cfg.cmp key kr.1 ≠ 0 := by
        intro kr hkr
        apply hne kr
        simp only [collectE, hn]
        rw [List.mem_append]
        refine Or.inr ?_
        rw [hleaf]
        simp only [Bool.false_eq_true, if_false]
        exact collectKids_of_child _ n.entries n.right_child _ hple kr hkr
      have hIH := ih _ _ _ hkid hnech d (by omega)
      have hstep : seekGo cfg s key (d + 1) off =
          seekGo cfg s key d (childAt n (find_key_pos cfg key n.entries)) := by
        simp only [seekGo, hn, hleaf, Bool.false_eq_true, if_false]
        rw [if_neg]
        intro hcontra
        simp only [Bool.and_eq_true, decide_eq_true_eq] at hcontra
        exact hne_idx _ hcontra.1 hcontra.2
      rw [hstep, childAt_eq]
      refine ⟨hIH.1, ?_⟩
      rcases hIH.2 with hz | ⟨k', r', hmem', hklt, hval, hmin⟩
      · exact Or.inl hz
      right
      have hmem_off : (k', r') ∈ collectE s (fuel + 1) off := by
        simp only [collectE, hn]
        rw [List.mem_append]
        refine Or.inr ?_
        rw [hleaf]
        simp only [Bool.false_eq_true, if_false]
        exact collectKids_of_child _ n.entries n.right_child _ hple _ hmem'
      -- upper bound of the descended child, used for minimality
      have hbk' := collect_bounds laws fuel _ _ _ hkid (k', r') hmem'
      simp only [boundOkB, Bool.and_eq_true] at hbk'
      refine ⟨k', r', hmem_off, hklt, hval, ?_⟩
      intro k'' r'' hmem'' hklt''
      simp only [collectE, hn] at hmem''
      rw [List.mem_append] at hmem''
      rcases hmem'' with hmem'' | hmem''
      · -- a node entry greater than the key sits at or after the descent
        -- position
        obtain ⟨e, he, heq⟩ := List.mem_map.mp hmem''
        obtain ⟨j, hjlen, hjget⟩ := List.mem_iff_getElem.mp he
        have hkj : (n.entries.getD j defaultEntry).key = k'' := by
          rw [getD_eq_getElem _ _ j hjlen, hjget]
          exact congrArg Prod.fst heq
        have hjp : find_key_pos cfg key n.entries ≤ j := by
          by_contra hc
          push_neg at hc
          have := hlt j hc hjlen
          rw [hkj] at this
          omega
        have hplen : find_key_pos cfg key n.entries < n.entries.length := by omega
        have hk'p : cfg.cmp k'
            (n.entries.getD (find_key_pos cfg key n.entries) defaultEntry).key ≤ 0 := by
          have := hbk'.2
          simp only [boundR, if_pos hplen, decide_eq_true_eq] at this
          exact this
        have hpj := chainLeB_le laws n.entries hchain j
          (find_key_pos cfg key n.entries) hjp hjlen
        have := laws.le_trans hk'p hpj
        rwa [hkj] at this
      · rw [hleaf] at hmem''
        simp only [Bool.false_eq_true, if_false] at hmem''
        obtain ⟨i, hile, hchild''⟩ := collectKids_local _ n.entries n.right_child
          (k'', r'') hmem''
        rcases Nat.lt_trichotomy i (find_key_pos cfg key n.entries) with hip | hip | hip
        · -- a child left of the descent position holds only keys below the
          -- search key; it cannot contain a successor
          exfalso
          have hkidi := goodKids_index _ hi n.entries n.right_child lo hrest i hile
          have hb'' := collect_bounds laws fuel _ _ _ hkidi (k'', r'') hchild''
          simp only [boundOkB, Bool.and_eq_true] at hb''
          have hilen : i < n.entries.length := by omega
          have h1 : cfg.cmp k'' (n.entries.getD i defaultEntry).key ≤ 0 := by
            have := hb''.2
            simp only [boundR, if_pos hilen, decide_eq_true_eq] at this
            exact this
          have h2 := hlt i hip hilen
          have h3 := laws.symm key (n.entries.getD i defaultEntry).key
          have h4 := laws.lt_of_le_of_lt h1
            (show cfg.cmp (n.entries.getD i defaultEntry).key key < 0 by omega)
          have h5 := laws.symm k'' key
          omega
        · -- same child as the descent: the inductive minimality applies
          subst hip
          exact hmin k'' r'' hchild'' hklt''
        · -- a child right of the descent position: everything there is
          -- at least the separator above the descent position
          have hkidi := goodKids_index _ hi n.entries n.right_child lo hrest i hile
          have hb'' := collect_bounds laws fuel _ _ _ hkidi (k'', r'') hchild''
          simp only [boundOkB, Bool.and_eq_true] at hb''
          have hi1 : i - 1 < n.entries.length := by omega
          have hplen : find_key_pos cfg key n.entries < n.entries.length := by omega
          have h1 : cfg.cmp (n.entries.getD (i - 1) defaultEntry).key k'' ≤ 0 := by
            have := hb''.1
            simp only [boundL, if_neg (by omega : ¬ i = 0), decide_eq_true_eq] at this
            exact this
          have hk'p : cfg.cmp k'
              (n.entries.getD (find_key_pos cfg key n.entries) defaultEntry).key ≤ 0 := by
            have := hbk'.2
            simp only [boundR, if_pos hplen, decide_eq_true_eq] at this
            exact this
          have hsep := chainLeB_le laws n.entries hchain (i - 1)
            (find_key_pos cfg key n.entries) (by omega) hi1
          exact laws.le_trans (laws.le_trans hk'p hsep) h1
    · -- leaf: the answer is decided here
      have hstep : seekGo cfg s key (d + 1) off =
          match n.entries.get? (find_key_pos cfg key n.entries) with
          | some e =>
            if cfg.cmp key e.key = 0 then (true, e.recno)
            else if cfg.cmp key e.key < 0 then (false, e.recno)
            else (false, 0)
          | none => (false, 0) := by
        simp only [seekGo, hn, hleaf, if_true]
      rcases hp : n.entries.get? (find_key_pos cfg key n.entries) with _ | e
      · rw [hp] at hstep
        rw [hstep]
        exact ⟨rfl, Or.inl rfl⟩
      · rw [hp] at hstep
        have hplen : find_key_pos cfg key n.entries < n.entries.length := by
          by_contra hc
          push_neg at hc
          rw [List.get?_eq_none.mpr hc] at hp
          cases hp
        have hept : e = n.entries.getD (find_key_pos cfg key n.entries) defaultEntry := by
          rw [getD_eq_getElem _ _ _ hplen]
          have := List.get?_eq_getElem? n.entries (find_key_pos cfg key n.entries)
          rw [hp, List.getElem?_eq_getElem hplen] at this
          exact Option.some_injective _ this
        have hcmp : cfg.cmp key e.key < 0 := by
          rw [hept]
          exact hgt _ (le_refl _) hplen
        have hstep2 : seekGo cfg s key (d + 1) off =
            if cfg.cmp key e.key = 0 then (true, e.recno)
            else if cfg.cmp key e.key < 0 then (false, e.recno)
            else (false, 0) := by
          rw [hstep]
        rw [hstep2]
        rw [if_neg (by omega), if_pos hcmp]
        refine ⟨rfl, Or.inr ⟨e.key, e.recno, ?_, hcmp, rfl, ?_⟩⟩
        · simp only [collectE, hn]
          rw [List.mem_append]
          refine Or.inl (List.mem_map.mpr ⟨e, ?_, rfl⟩)
          rw [hept]
          exact getD_mem _ _ _ hplen
        · intro k'' r'' hmem'' hklt''
          simp only [collectE, hn, hleaf, if_true] at hmem''
          rw [List.mem_append] at hmem''
          rcases hmem'' with hmem'' | hmem''
          · obtain ⟨e', he', heq'⟩ := List.mem_map.mp hmem''
            obtain ⟨j, hjlen, hjget⟩ := List.mem_iff_getElem.mp he'
            have hkj : (n.entries.getD j defaultEntry).key = k'' := by
              rw [getD_eq_getElem _ _ j hjlen, hjget]
              exact congrArg Prod.fst heq'
            have hjp : find_key_pos cfg key n.entries ≤ j := by
              by_contra hc
              push_neg at hc
              have := hlt j hc hjlen
              rw [hkj] at this
              omega
            have := chainLeB_le laws n.entries hchain j
              (find_key_pos cfg key n.entries) hjp hjlen
            rw [hept, ← hkj]
            exact this
          · simp at hmem''

/-- Claim C3, amended: when no entry of a well-formed index is
comparator-equal to the search key, `xdx_seek` reports `found = false` and
sets `current_recno` either to 0 or to the record number of the successor
entry (the least comparator-greater entry in the whole tree).  In
particular, with no successor anywhere it is 0 — but 0 can also be reported
when a successor exists yet does not lie in the leaf where the descent
ends, so "0 only when no successor exists" does not hold. -/
theorem C3_seek_miss_amended (cfg : XDXCfg) (s : XDXState) (key : List Byte)
    (fuel : Nat) (laws : CmpLaws cfg.cmp)
    (hg : goodSub cfg s fuel s.root none none = true)
    (hne : ∀ kr ∈ collectE s fuel s.root, cfg.cmp key kr.1 ≠ 0)
    (hfuel : fuel ≤ s.nodes.length + 1) :
    (xdx_seek cfg s key).1 = false ∧
    ((xdx_seek cfg s key).2 = 0 ∨
     ∃ k' r', (k', r') ∈ collectE s fuel s.root ∧ cfg.cmp key k' < 0 ∧
       (xdx_seek cfg s key).2 = r' ∧
       ∀ k'' r'', (k'', r'') ∈ collectE s fuel s.root → cfg.cmp key k'' < 0 →
         cfg.cmp k' k'' ≤ 0) :=
  seek_miss laws key fuel s.root none none hg hne (s.nodes.length + 1) hfuel

/-- Claim C3 counterexample: in the two-level index with leaves
["aa" → 1] and ["cc" → 3] under root separator "bb" → 2, seeking "ab"
returns `found = false` and `current_recno = 0`, although the successor
entry "bb" (record 2) exists in the tree — the claim says `current_recno`
is 0 only when no successor exists. -/
theorem C3_counterexample :
    xdx_seek ⟨4, false, memcmpBytes⟩
      ⟨[⟨true, [⟨[97, 97], 1, 0⟩], 0⟩, ⟨true, [⟨[99, 99], 3, 0⟩], 0⟩,
        ⟨false, [⟨[98, 98], 2, 1⟩], 2⟩], 3⟩ [97, 98] = (false, 0) ∧
    ([98, 98], 2) ∈ collectE
      ⟨[⟨true, [⟨[97, 97], 1, 0⟩], 0⟩, ⟨true, [⟨[99, 99], 3, 0⟩], 0⟩,
        ⟨false, [⟨[98, 98], 2, 1⟩], 2⟩], 3⟩ 2 3 ∧
    memcmpBytes [97, 98] [98, 98] < 0 := by
  decide

/-- Witness for the amended C3 theorem: seeking "ab" in the same index
satisfies the amended description (here via the `current_recno = 0`
disjunct). -/
theorem C3_seek_miss_amended_witness :
    (xdx_seek ⟨4, false, memcmpBytes⟩
      ⟨[⟨true, [⟨[97, 97], 1, 0⟩], 0⟩, ⟨true, [⟨[99, 99], 3, 0⟩], 0⟩,
        ⟨false, [⟨[98, 98], 2, 1⟩], 2⟩], 3⟩ [97, 98]).1 = false :=
  (C3_seek_miss_amended ⟨4, false, memcmpBytes⟩
    ⟨[⟨true, [⟨[97, 97], 1, 0⟩], 0⟩, ⟨true, [⟨[99, 99], 3, 0⟩], 0⟩,
      ⟨false, [⟨[98, 98], 2, 1⟩], 2⟩], 3⟩ [97, 98] 2 memcmpBytes_laws
    (by decide) (by decide) (by decide)).1

end XBase3
